import Mathlib

/-!
# OptimizedDatabase: the indexed post store and its top-k queries

A shallow embedding of `Cyberkolya/Cyberkolya/OptimizedDatabase.h`.

* The three `std::unordered_map` members (`users`, `posts`, `owner_posts`) are
  never iterated by the code, only searched, inserted into and erased from, so
  each is a finite partial function `key → Option value`.
* A `std::multiset<Post, CompareByDate>` is the list of its elements in
  iteration order; iterators are positions in that list (`end()` is the length).
* A `std::priority_queue` is the list of its elements in the order in which
  successive `top()`/`pop()` calls hand them out.  The order among elements that
  the comparator does not distinguish is not fixed by the C++ standard; the list
  model fixes one admissible order.
* `int` is `Int`; `++`, `--` and `+=` wrap to 32 bits (two's complement).
* A thrown `DatabaseException` and undefined behaviour (calling `top()` on an
  empty queue, incrementing `end()`) are explicit failure results.
-/

/-- Modelled from the spec: the `User` record declared in `abstract_database.h`
(not in the repository sources): an integer identifier plus profile data that
the store never inspects, carried here as one value. -/
structure User where
  Id : Int
  Profile : Nat
deriving DecidableEq

/-- Modelled from the spec: the `Post` record declared in `abstract_database.h`
(not in the repository sources): identifier, owner, author, date, like count and
repost count, all `int`. -/
structure Post where
  Id : Int
  OwnerId : Int
  FromId : Int
  Date : Int
  Likes : Int
  Reposts : Int
deriving DecidableEq

/-- Ways in which a call can fail to return: the two `DatabaseException`s the
code throws, and undefined behaviour. -/
inductive Fault where
  | UserNotFound
  | PostNotFound
  | Undefined
deriving DecidableEq

deriving instance DecidableEq for Except

/-- The three containers of `class OptimizedDatabase`. -/
structure OptimizedDatabase where
  users : Int → Option User
  posts : Int × Int → Option Post
  owner_posts : Int → Option (List Post)

namespace OptimizedDatabase

/-! ## Machine arithmetic -/

/-- Result of 32-bit signed arithmetic: the value reduced into
`[-2^31, 2^31)`. -/
def wrap_int (x : Int) : Int := (x + 2147483648) % 4294967296 - 2147483648

/-- The comparison `min_heap.size() < k` with `size()` a 64-bit `size_t` and `k`
an `int`: `k` is converted to `size_t`, i.e. reduced modulo `2^64`. -/
def size_lt (n : Nat) (k : Int) : Bool := decide ((n : Int) < k % 18446744073709551616)

/-! ## Comparators -/

/-- `CompareByDate::operator()`: `std::tie(a.Date, a.Id) < std::tie(b.Date, b.Id)`. -/
def CompareByDate (a b : Post) : Bool :=
  decide (a.Date < b.Date) || (!decide (b.Date < a.Date) && decide (a.Id < b.Id))

/-- `CompareByLikes::operator()`. -/
def CompareByLikes (a b : Post) : Bool := decide (a.Likes > b.Likes)

/-- `CompareByReposts::operator()`. -/
def CompareByReposts (a b : Post) : Bool := decide (a.Reposts > b.Reposts)

/-- `std::greater<std::pair<int, int>>`: lexicographic `a > b`. -/
def greater_pair (a b : Int × Int) : Bool :=
  decide (b.1 < a.1) || (!decide (a.1 < b.1) && decide (b.2 < a.2))

/-! ## Containers -/

/-- Store `v` under `k` (`m[k] = v`). -/
def map_set {κ ν : Type} [DecidableEq κ] (m : κ → Option ν) (k : κ) (v : ν) : κ → Option ν :=
  fun q => if q = k then some v else m q

/-- Remove key `k` (`m.erase(k)`). -/
def map_erase {κ ν : Type} [DecidableEq κ] (m : κ → Option ν) (k : κ) : κ → Option ν :=
  fun q => if q = k then none else m q

/-- `std::multiset::insert`: the new element goes before the first element that
is greater than it (the upper bound of its equivalence range). -/
def multiset_insert {α : Type} (comp : α → α → Bool) (x : α) : List α → List α
  | [] => [x]
  | y :: ys => if comp x y then x :: y :: ys else y :: multiset_insert comp x ys

/-- `std::multiset::lower_bound`: position of the first element that is not
less than `key`. -/
def lower_bound {α : Type} (comp : α → α → Bool) (key : α) : List α → Nat
  | [] => 0
  | y :: ys => if comp y key then lower_bound comp key ys + 1 else 0

/-- `std::multiset::upper_bound`: position of the first element that is greater
than `key`. -/
def upper_bound {α : Type} (comp : α → α → Bool) (key : α) : List α → Nat
  | [] => 0
  | y :: ys => if comp key y then 0 else upper_bound comp key ys + 1

/-- `std::multiset::find`: position of an element equivalent to `key`, or
`end()` (the length) when there is none. -/
def multiset_find {α : Type} (comp : α → α → Bool) (key : α) (s : List α) : Nat :=
  match s.drop (lower_bound comp key s) with
  | [] => s.length
  | y :: _ => if comp key y then s.length else lower_bound comp key s

/-- The elements visited by `for (auto it = b; it != e; ++it)` over a container
with elements `s`.  When `b` lies after `e` the loop steps past `end()`. -/
def iterate {α : Type} (s : List α) (b e : Nat) : Except Fault (List α) :=
  if b ≤ e then .ok ((s.drop b).take (e - b)) else .error .Undefined

/-- `std::priority_queue::push`, on the list of elements in `top()` order: the
new element comes out after every element that `comp` ranks above it. -/
def pq_push {α : Type} (comp : α → α → Bool) (x : α) : List α → List α
  | [] => [x]
  | y :: ys => if comp x y then y :: pq_push comp x ys else x :: y :: ys

/-- One iteration of the selection loop shared by the four queries:
`if (heap.size() < k) push(x); else if (better(x, heap.top())) { pop(); push(x); }`. -/
def select_step {α : Type} (comp better : α → α → Bool) (k : Int) (heap : List α) (x : α) :
    Except Fault (List α) :=
  if size_lt heap.length k then .ok (pq_push comp x heap)
  else
    match heap with
    | [] => .error .Undefined
    | top :: rest => if better x top then .ok (pq_push comp x rest) else .ok heap

/-- The selection loop over the scanned elements. -/
def bounded_select {α : Type} (comp better : α → α → Bool) (k : Int) :
    List α → List α → Except Fault (List α)
  | heap, [] => .ok heap
  | heap, x :: xs =>
    match select_step comp better k heap x with
    | .ok heap1 => bounded_select comp better k heap1 xs
    | .error f => .error f

/-! ## The store -/

/-- The store right after construction. -/
def empty : OptimizedDatabase :=
  { users := fun _ => none, posts := fun _ => none, owner_posts := fun _ => none }

/-- `get_user`. -/
def get_user (db : OptimizedDatabase) (id : Int) : Except Fault User :=
  match db.users id with
  | some u => .ok u
  | none => .error .UserNotFound

/-- `insert_user`. -/
def insert_user (db : OptimizedDatabase) (user : User) : OptimizedDatabase :=
  { db with users := map_set db.users user.Id user }

/-- `get_post`. -/
def get_post (db : OptimizedDatabase) (ownerId postId : Int) : Except Fault Post :=
  match db.posts (ownerId, postId) with
  | some p => .ok p
  | none => .error .PostNotFound

/-- `insert_post`: `posts.emplace` succeeds only for a new key, and only then is
the copy inserted into `owner_posts[post.OwnerId]`. -/
def insert_post (db : OptimizedDatabase) (post : Post) : OptimizedDatabase :=
  match db.posts (post.OwnerId, post.Id) with
  | some _ => db
  | none =>
    { db with
      posts := map_set db.posts (post.OwnerId, post.Id) post
      owner_posts := map_set db.owner_posts post.OwnerId
        (multiset_insert CompareByDate post ((db.owner_posts post.OwnerId).getD [])) }

/-- `delete_post`: the outcome of the call together with the store afterwards. -/
def delete_post (db : OptimizedDatabase) (ownerId postId : Int) :
    Except Fault Unit × OptimizedDatabase :=
  match db.posts (ownerId, postId) with
  | some post =>
    let owner_set := (db.owner_posts ownerId).getD []
    let it := multiset_find CompareByDate post owner_set
    let owner_set1 := if it ≠ owner_set.length then owner_set.eraseIdx it else owner_set
    let owner_posts1 :=
      if owner_set1.isEmpty then map_erase db.owner_posts ownerId
      else map_set db.owner_posts ownerId owner_set1
    (.ok (), { db with owner_posts := owner_posts1, posts := map_erase db.posts (ownerId, postId) })
  | none => (.error .PostNotFound, db)

/-- `like_post`. -/
def like_post (db : OptimizedDatabase) (ownerId postId : Int) : OptimizedDatabase :=
  match db.posts (ownerId, postId) with
  | some p =>
    { db with posts := map_set db.posts (ownerId, postId) { p with Likes := wrap_int (p.Likes + 1) } }
  | none => db

/-- `unlike_post`. -/
def unlike_post (db : OptimizedDatabase) (ownerId postId : Int) : OptimizedDatabase :=
  match db.posts (ownerId, postId) with
  | some p =>
    { db with posts := map_set db.posts (ownerId, postId) { p with Likes := wrap_int (p.Likes - 1) } }
  | none => db

/-- `repost_post`. -/
def repost_post (db : OptimizedDatabase) (ownerId postId : Int) : OptimizedDatabase :=
  match db.posts (ownerId, postId) with
  | some p =>
    { db with
      posts := map_set db.posts (ownerId, postId) { p with Reposts := wrap_int (p.Reposts + 1) } }
  | none => db

/-- `Post dummy{}; dummy.Date = date;`: every other field is value-initialised
to zero. -/
def dummy (date : Int) : Post :=
  { Id := 0, OwnerId := 0, FromId := 0, Date := date, Likes := 0, Reposts := 0 }

/-- The elements between `lower_bound(dummy_start)` and `upper_bound(dummy_end)`
of one owner's set, as visited by the query loops. -/
def scan (posts_set : List Post) (dateBegin dateEnd : Int) : Except Fault (List Post) :=
  iterate posts_set (lower_bound CompareByDate (dummy dateBegin) posts_set)
    (upper_bound CompareByDate (dummy dateEnd) posts_set)

/-- Entries that are neither ordered before the lower probe nor after the upper
probe. -/
def in_scan (dateBegin dateEnd : Int) (x : Post) : Bool :=
  !CompareByDate x (dummy dateBegin) && !CompareByDate (dummy dateEnd) x

/-- `top_k_post_by_likes`. -/
def top_k_post_by_likes (db : OptimizedDatabase) (k ownerId dateBegin dateEnd : Int) :
    Except Fault (List Post) :=
  match db.owner_posts ownerId with
  | none => .ok []
  | some posts_set =>
    match scan posts_set dateBegin dateEnd with
    | .error f => .error f
    | .ok range =>
      match bounded_select CompareByLikes (fun x top => decide (x.Likes > top.Likes)) k [] range with
      | .error f => .error f
      | .ok min_heap => .ok min_heap.reverse

/-- `top_k_post_by_reposts`. -/
def top_k_post_by_reposts (db : OptimizedDatabase) (k ownerId dateBegin dateEnd : Int) :
    Except Fault (List Post) :=
  match db.owner_posts ownerId with
  | none => .ok []
  | some posts_set =>
    match scan posts_set dateBegin dateEnd with
    | .error f => .error f
    | .ok range =>
      match bounded_select CompareByReposts (fun x top => decide (x.Reposts > top.Reposts))
          k [] range with
      | .error f => .error f
      | .ok min_heap => .ok min_heap.reverse

/-- `count[key] += v` on a local `std::unordered_map<int, int>`, kept as the list
of its `(key, total)` entries.  The iteration order of the C++ container is
unspecified; the list keeps the entries in order of first insertion. -/
def count_add (key v : Int) : List (Int × Int) → List (Int × Int)
  | [] => [(key, wrap_int (0 + v))]
  | (q, c) :: rest =>
    if q = key then (q, wrap_int (c + v)) :: rest else (q, c) :: count_add key v rest

/-- The aggregation loop `for (it ...) count[it->FromId] += weight(*it)`. -/
def aggregate (weight : Post → Int) : List (Int × Int) → List Post → List (Int × Int)
  | count, [] => count
  | count, p :: ps => aggregate weight (count_add p.FromId (weight p) count) ps

/-- The drain loop of the author queries: each `(total, userId)` pair taken from
the heap is resolved with `get_user`, which throws for an unknown user. -/
def resolve (db : OptimizedDatabase) : List (Int × Int) → Except Fault (List (User × Int))
  | [] => .ok []
  | (total, userId) :: rest =>
    match get_user db userId with
    | .error f => .error f
    | .ok u =>
      match resolve db rest with
      | .error f => .error f
      | .ok r => .ok ((u, total) :: r)

/-- The part shared by the two author queries once the weight is chosen:
aggregate per `FromId`, select over `(total, userId)` pairs, resolve, reverse. -/
def top_k_authors (weight : Post → Int) (db : OptimizedDatabase)
    (k ownerId dateBegin dateEnd : Int) : Except Fault (List (User × Int)) :=
  match db.owner_posts ownerId with
  | none => .ok []
  | some posts_set =>
    match scan posts_set dateBegin dateEnd with
    | .error f => .error f
    | .ok range =>
      match bounded_select greater_pair (fun x top => decide (x.1 > top.1)) k []
          ((aggregate weight [] range).map (fun pair => (pair.2, pair.1))) with
      | .error f => .error f
      | .ok min_heap =>
        match resolve db min_heap with
        | .error f => .error f
        | .ok result => .ok result.reverse

/-- `top_k_authors_by_likes`; a `UserWithLikes` is the pair of the user and the
aggregated like count. -/
def top_k_authors_by_likes (db : OptimizedDatabase) (k ownerId dateBegin dateEnd : Int) :
    Except Fault (List (User × Int)) :=
  top_k_authors (fun p => p.Likes) db k ownerId dateBegin dateEnd

/-- `top_k_authors_by_reports`; a `UserWithReposts` is the pair of the user and
the aggregated repost count. -/
def top_k_authors_by_reports (db : OptimizedDatabase) (k ownerId dateBegin dateEnd : Int) :
    Except Fault (List (User × Int)) :=
  top_k_authors (fun p => p.Reposts) db k ownerId dateBegin dateEnd

/-! ## Histories -/

/-- A call of one of the public mutating operations. -/
inductive Op where
  | insert_user (user : User)
  | insert_post (post : Post)
  | delete_post (ownerId postId : Int)
  | like_post (ownerId postId : Int)
  | unlike_post (ownerId postId : Int)
  | repost_post (ownerId postId : Int)
deriving DecidableEq

/-- The store after one call (a `delete_post` that throws leaves the store it
returns with the exception). -/
def apply (db : OptimizedDatabase) : Op → OptimizedDatabase
  | .insert_user u => insert_user db u
  | .insert_post p => insert_post db p
  | .delete_post o i => (delete_post db o i).2
  | .like_post o i => like_post db o i
  | .unlike_post o i => unlike_post db o i
  | .repost_post o i => repost_post db o i

/-- The store after a sequence of calls. -/
def run (db : OptimizedDatabase) : List Op → OptimizedDatabase
  | [] => db
  | op :: ops => run (apply db op) ops

/-- The stores reachable from the empty store by public operations. -/
inductive Reachable : OptimizedDatabase → Prop where
  | init : Reachable empty
  | step {db : OptimizedDatabase} (op : Op) : Reachable db → Reachable (apply db op)


/-- An index entry and a table record describe the same post: they agree on
every field except the two counters. -/
def same_post (e p : Post) : Prop :=
  e.Id = p.Id ∧ e.OwnerId = p.OwnerId ∧ e.FromId = p.FromId ∧ e.Date = p.Date

/-- The synchronisation invariant between the Post Table and the Owner Date
Index. -/
structure Inv (db : OptimizedDatabase) : Prop where
  key_eq : ∀ o i p, db.posts (o, i) = some p → p.OwnerId = o ∧ p.Id = i
  indexed : ∀ o i p, db.posts (o, i) = some p →
    ∃ b, db.owner_posts o = some b ∧ ∃ e ∈ b, same_post e p
  stored : ∀ o b e, db.owner_posts o = some b → e ∈ b →
    e.OwnerId = o ∧ ∃ p, db.posts (o, e.Id) = some p ∧ same_post e p
  sorted : ∀ o b, db.owner_posts o = some b → b.Pairwise (fun x y => CompareByDate x y = true)
  distinct : ∀ o b, db.owner_posts o = some b → b.Pairwise (fun x y => x.Id ≠ y.Id)
  nonempty : ∀ o b, db.owner_posts o = some b → b ≠ []

/-- An owner's set with the entry of identifier `i` taken out; no set is left
when nothing remains. -/
def bucket_without (i : Int) : Option (List Post) → Option (List Post)
  | none => none
  | some b =>
    if (b.filter (fun x => decide (x.Id ≠ i))).isEmpty then none
    else some (b.filter (fun x => decide (x.Id ≠ i)))

/-- The store with the post of key `(o, i)` taken out of the Post Table and out
of the bucket of `o`.  Under the invariant this is the store that a successful
`delete_post(o, i)` leaves (`delete_post_eq_without_post`). -/
def without_post (db : OptimizedDatabase) (o i : Int) : OptimizedDatabase :=
  { users := db.users
    posts := map_erase db.posts (o, i)
    owner_posts := fun q => if q = o then bucket_without i (db.owner_posts o) else db.owner_posts q }

/-- A call that neither inserts nor deletes the post of key `(o, i)`. -/
def Op.spares (o i : Int) : Op → Prop
  | .insert_post p => (p.OwnerId, p.Id) ≠ (o, i)
  | .delete_post o1 i1 => (o1, i1) ≠ (o, i)
  | _ => True

/-- A call that neither deletes the post of key `(o, i)` nor changes one of its
counters. -/
def Op.keeps (o i : Int) : Op → Prop
  | .delete_post o1 i1 => (o1, i1) ≠ (o, i)
  | .like_post o1 i1 => (o1, i1) ≠ (o, i)
  | .unlike_post o1 i1 => (o1, i1) ≠ (o, i)
  | .repost_post o1 i1 => (o1, i1) ≠ (o, i)
  | _ => True

/-! ## Facts about the comparators -/

theorem CompareByDate_iff (a b : Post) :
    CompareByDate a b = true ↔ a.Date < b.Date ∨ (a.Date = b.Date ∧ a.Id < b.Id) := by
  simp only [CompareByDate, Bool.or_eq_true, Bool.and_eq_true, Bool.not_eq_true',
    decide_eq_true_eq, decide_eq_false_iff_not]
  constructor
  · rintro (h | ⟨h1, h2⟩)
    · exact Or.inl h
    · rcases lt_or_eq_of_le (not_lt.mp h1) with h | h
      · exact Or.inl h
      · exact Or.inr ⟨h, h2⟩
  · rintro (h | ⟨h1, h2⟩)
    · exact Or.inl h
    · exact Or.inr ⟨by omega, h2⟩

theorem CompareByDate_false_iff (a b : Post) :
    CompareByDate a b = false ↔ b.Date < a.Date ∨ (a.Date = b.Date ∧ b.Id ≤ a.Id) := by
  rw [← Bool.not_eq_true, CompareByDate_iff]
  omega

theorem CompareByDate_trans {a b c : Post} (h1 : CompareByDate a b = true)
    (h2 : CompareByDate b c = true) : CompareByDate a c = true := by
  rw [CompareByDate_iff] at *
  omega

theorem CompareByDate_asymm {a b : Post} (h1 : CompareByDate a b = true) :
    CompareByDate b a = false := by
  rw [CompareByDate_false_iff]
  rw [CompareByDate_iff] at h1
  omega

/-- Entries of one owner with different identifiers are ordered one way or the other. -/
theorem CompareByDate_total {a b : Post} (h : a.Id ≠ b.Id) :
    CompareByDate a b = true ∨ CompareByDate b a = true := by
  simp only [CompareByDate_iff]
  omega

/-- The comparator only looks at `Date` and `Id`. -/
theorem CompareByDate_congr_left {a b : Post} (c : Post) (hd : a.Date = b.Date) (hi : a.Id = b.Id) :
    CompareByDate a c = CompareByDate b c := by
  simp [CompareByDate, hd, hi]

theorem CompareByDate_congr_right {a b : Post} (c : Post) (hd : a.Date = b.Date) (hi : a.Id = b.Id) :
    CompareByDate c a = CompareByDate c b := by
  simp [CompareByDate, hd, hi]

/-! ## Facts about the containers -/

section containers

variable {α : Type}

theorem mem_multiset_insert (comp : α → α → Bool) (x y : α) (s : List α) :
    y ∈ multiset_insert comp x s ↔ y = x ∨ y ∈ s := by
  induction s with
  | nil => simp [multiset_insert]
  | cons z zs ih =>
    simp only [multiset_insert]
    split
    · simp
    · simp only [List.mem_cons, ih]
      tauto

theorem multiset_insert_ne_nil (comp : α → α → Bool) (x : α) (s : List α) :
    multiset_insert comp x s ≠ [] := by
  cases s with
  | nil => simp [multiset_insert]
  | cons z zs =>
    simp only [multiset_insert]
    split <;> simp

theorem mem_pq_push (comp : α → α → Bool) (x y : α) (s : List α) :
    y ∈ pq_push comp x s ↔ y = x ∨ y ∈ s := by
  induction s with
  | nil => simp [pq_push]
  | cons z zs ih =>
    simp only [pq_push]
    split
    · simp only [List.mem_cons, ih]
      tauto
    · simp

theorem length_pq_push (comp : α → α → Bool) (x : α) (s : List α) :
    (pq_push comp x s).length = s.length + 1 := by
  induction s with
  | nil => simp [pq_push]
  | cons z zs ih =>
    simp only [pq_push]
    split <;> simp [ih]

theorem lower_bound_le_length (comp : α → α → Bool) (key : α) (s : List α) :
    lower_bound comp key s ≤ s.length := by
  induction s with
  | nil => simp [lower_bound]
  | cons z zs ih =>
    simp only [lower_bound]
    split <;> simp [ih]

theorem upper_bound_le_length (comp : α → α → Bool) (key : α) (s : List α) :
    upper_bound comp key s ≤ s.length := by
  induction s with
  | nil => simp [upper_bound]
  | cons z zs ih =>
    simp only [upper_bound]
    split <;> simp [ih]

/-- When everything below `lo` is not above `hi`, the lower bound of `lo` does
not lie after the upper bound of `hi`. -/
theorem lower_bound_le_upper_bound (comp : α → α → Bool) (lo hi : α)
    (h : ∀ y, comp y lo = true → comp hi y = false) (s : List α) :
    lower_bound comp lo s ≤ upper_bound comp hi s := by
  induction s with
  | nil => simp [lower_bound, upper_bound]
  | cons z zs ih =>
    simp only [lower_bound, upper_bound]
    by_cases hz : comp z lo = true
    · simp [hz, h z hz, ih]
    · simp [hz]

theorem multiset_find_cons_of_lt (comp : α → α → Bool) (key y : α) (ys : List α)
    (h : comp y key = true) :
    multiset_find comp key (y :: ys) = multiset_find comp key ys + 1 := by
  simp only [multiset_find, lower_bound, h, if_true, List.drop_succ_cons, List.length_cons]
  split
  · rfl
  · split <;> rfl

theorem multiset_find_cons_of_not_lt (comp : α → α → Bool) (key y : α) (ys : List α)
    (h : comp y key = false) :
    multiset_find comp key (y :: ys) = if comp key y = true then ys.length + 1 else 0 := by
  simp [multiset_find, lower_bound, h]

/-- Inserting into a strictly ordered set keeps it strictly ordered, provided
the new element is comparable with every element already there. -/
theorem pairwise_multiset_insert (comp : α → α → Bool)
    (htrans : ∀ a b c, comp a b = true → comp b c = true → comp a c = true)
    (x : α) (s : List α) (hs : s.Pairwise (fun a b => comp a b = true))
    (hx : ∀ y ∈ s, comp x y = true ∨ comp y x = true) :
    (multiset_insert comp x s).Pairwise (fun a b => comp a b = true) := by
  induction s with
  | nil => simp [multiset_insert]
  | cons z zs ih =>
    rw [List.pairwise_cons] at hs
    simp only [multiset_insert]
    by_cases hxz : comp x z = true
    · rw [if_pos hxz]
      refine List.pairwise_cons.mpr ⟨?_, List.pairwise_cons.mpr hs⟩
      intro y hy
      rcases List.mem_cons.mp hy with rfl | hy
      · exact hxz
      · exact htrans _ _ _ hxz (hs.1 y hy)
    · rw [if_neg hxz]
      have hzx : comp z x = true := by
        rcases hx z (List.mem_cons_self _ _) with h | h
        · exact absurd h hxz
        · exact h
      refine List.pairwise_cons.mpr ⟨?_, ih hs.2 (fun y hy => hx y (List.mem_cons_of_mem _ hy))⟩
      intro y hy
      rcases (mem_multiset_insert comp x y zs).mp hy with rfl | hy
      · exact hzx
      · exact hs.1 y hy

/-- In a strictly ordered set, inserting an element that passes a filter
commutes with the filter. -/
theorem filter_multiset_insert (comp : α → α → Bool)
    (htrans : ∀ a b c, comp a b = true → comp b c = true → comp a c = true)
    (keep : α → Bool) (x : α) (hx : keep x = true) (s : List α)
    (hs : s.Pairwise (fun a b => comp a b = true)) :
    (multiset_insert comp x s).filter keep = multiset_insert comp x (s.filter keep) := by
  induction s with
  | nil => simp [multiset_insert, hx]
  | cons z zs ih =>
    rw [List.pairwise_cons] at hs
    by_cases hxz : comp x z = true
    · have hall : ∀ y ∈ zs.filter keep, comp x y = true := fun y hy =>
        htrans _ _ _ hxz (hs.1 y (List.mem_filter.mp hy).1)
      have hfront : multiset_insert comp x (zs.filter keep) = x :: zs.filter keep := by
        cases hf : zs.filter keep with
        | nil => simp [multiset_insert]
        | cons w ws =>
          have : comp x w = true := hall w (by rw [hf]; exact List.mem_cons_self _ _)
          simp [multiset_insert, this]
      by_cases hz : keep z = true
      · simp [multiset_insert, hxz, hx, hz, List.filter_cons]
      · simp [multiset_insert, hxz, hx, hz, List.filter_cons, hfront]
    · by_cases hz : keep z = true
      · simp [multiset_insert, hxz, hz, List.filter_cons, ih hs.2]
      · simp [multiset_insert, hxz, hz, List.filter_cons, ih hs.2]

/-- On a strictly ordered set the elements between the lower bound of `lo` and
the upper bound of `hi` are those that are neither below `lo` nor above `hi`. -/
theorem drop_take_eq_filter (comp : α → α → Bool)
    (htrans : ∀ a b c, comp a b = true → comp b c = true → comp a c = true)
    (lo hi : α) (s : List α) (hs : s.Pairwise (fun a b => comp a b = true))
    (hle : lower_bound comp lo s ≤ upper_bound comp hi s) :
    (s.drop (lower_bound comp lo s)).take (upper_bound comp hi s - lower_bound comp lo s)
      = s.filter (fun x => !comp x lo && !comp hi x) := by
  induction s with
  | nil => simp [lower_bound, upper_bound]
  | cons z zs ih =>
    rw [List.pairwise_cons] at hs
    by_cases hz : comp z lo = true
    · by_cases hz2 : comp hi z = true
      · simp [lower_bound, upper_bound, hz, hz2] at hle
      · have hz3 : comp hi z = false := by simpa using hz2
        simp only [lower_bound, upper_bound, hz, hz3, if_true, Bool.false_eq_true, if_false]
          at hle ⊢
        have hle1 : lower_bound comp lo zs ≤ upper_bound comp hi zs := by omega
        have := ih hs.2 hle1
        simp only [List.drop_succ_cons, Nat.add_sub_add_right, this]
        simp [List.filter_cons, hz]
    · have hlo : ∀ y ∈ zs, comp y lo = false := by
        intro y hy
        by_contra hc
        exact hz (htrans _ _ _ (hs.1 y hy) (by simpa using hc))
      have hlb : lower_bound comp lo zs = 0 := by
        cases zs with
        | nil => rfl
        | cons w ws => simp [lower_bound, hlo w (List.mem_cons_self _ _)]
      by_cases hz2 : comp hi z = true
      · have hhi : ∀ y ∈ zs, comp hi y = true := fun y hy => htrans _ _ _ hz2 (hs.1 y hy)
        simp only [lower_bound, upper_bound, hz, hz2, if_true, if_false]
        simp only [Bool.false_eq_true, ↓reduceIte, le_refl, tsub_eq_zero_of_le, List.drop_zero,
          List.take_zero]
        symm
        rw [List.filter_eq_nil_iff]
        intro y hy
        rcases List.mem_cons.mp hy with rfl | hy
        · simp [hz2]
        · simp [hhi y hy]
      · have hz3 : comp hi z = false := by simpa using hz2
        have hz1 : comp z lo = false := by simpa using hz
        have := ih hs.2 (by rw [hlb]; exact Nat.zero_le _)
        rw [hlb] at this
        simp only [List.drop_zero, Nat.sub_zero] at this
        simp only [lower_bound, upper_bound, hz1, hz3, if_false, Bool.false_eq_true]
        simp only [List.drop_zero, Nat.sub_zero, List.take_succ_cons, this]
        simp [List.filter_cons, hz1, hz3]

end containers

/-- In an owner's set (strictly ordered, identifiers distinct) that holds an
entry with the date and identifier of `key`, `find(key)` succeeds and erasing at
the iterator it returns removes exactly the entry with that identifier. -/
theorem eraseIdx_multiset_find (key : Post) (s : List Post)
    (hs : s.Pairwise (fun a b => CompareByDate a b = true))
    (hid : s.Pairwise (fun a b => a.Id ≠ b.Id))
    (e : Post) (he : e ∈ s) (h1 : e.Id = key.Id) (h2 : e.Date = key.Date) :
    multiset_find CompareByDate key s ≠ s.length ∧
      s.eraseIdx (multiset_find CompareByDate key s) = s.filter (fun x => decide (x.Id ≠ key.Id)) := by
  induction s with
  | nil => simp at he
  | cons y ys ih =>
    rw [List.pairwise_cons] at hs hid
    by_cases hy : CompareByDate y key = true
    · have hne : y ≠ e := by
        rintro rfl
        have := (CompareByDate_iff y key).mp hy
        omega
      have he1 : e ∈ ys := by
        rcases List.mem_cons.mp he with h | h
        · exact absurd h.symm hne
        · exact h
      have hyid : y.Id ≠ key.Id := by
        rw [← h1]
        exact hid.1 e he1
      obtain ⟨ih1, ih2⟩ := ih hs.2 hid.2 he1
      rw [multiset_find_cons_of_lt _ _ _ _ hy]
      refine ⟨by simpa using ih1, ?_⟩
      simp [List.eraseIdx_cons_succ, ih2, List.filter_cons, hyid]
    · have hy1 : CompareByDate y key = false := by simpa using hy
      have hye : y = e := by
        rcases List.mem_cons.mp he with h | h
        · exact h.symm
        · exfalso
          have h3 := hs.1 e h
          rw [CompareByDate_congr_right y h2 h1] at h3
          exact hy h3
      subst hye
      have hk : CompareByDate key y = false := by
        rw [CompareByDate_false_iff]
        omega
      rw [multiset_find_cons_of_not_lt _ _ _ _ hy1]
      refine ⟨by simp [hk], ?_⟩
      simp only [hk, Bool.false_eq_true, if_false, List.eraseIdx_cons_zero]
      rw [List.filter_cons]
      simp only [h1, ne_eq, not_true_eq_false, decide_False, Bool.false_eq_true, if_false]
      symm
      rw [List.filter_eq_self]
      intro a ha
      have := hid.1 a ha
      simp only [decide_eq_true_eq]
      omega

/-! ## The synchronisation invariant -/

theorem map_set_same {κ ν : Type} [DecidableEq κ] (m : κ → Option ν) (k : κ) (v : ν) :
    map_set m k v k = some v := by
  simp [map_set]

theorem map_set_other {κ ν : Type} [DecidableEq κ] (m : κ → Option ν) (k : κ) (v : ν) (q : κ)
    (h : q ≠ k) : map_set m k v q = m q := by
  simp [map_set, h]

theorem map_erase_same {κ ν : Type} [DecidableEq κ] (m : κ → Option ν) (k : κ) :
    map_erase m k k = none := by
  simp [map_erase]

theorem map_erase_other {κ ν : Type} [DecidableEq κ] (m : κ → Option ν) (k : κ) (q : κ)
    (h : q ≠ k) : map_erase m k q = m q := by
  simp [map_erase, h]

theorem multiset_insert_perm {α : Type} (comp : α → α → Bool) (x : α) (s : List α) :
    (multiset_insert comp x s).Perm (x :: s) := by
  induction s with
  | nil => simp [multiset_insert]
  | cons z zs ih =>
    simp only [multiset_insert]
    split
    · exact List.Perm.refl _
    · exact (List.Perm.cons z ih).trans (List.Perm.swap x z zs)

theorem Inv_empty : Inv empty where
  key_eq := by intro o i p h; simp [empty] at h
  indexed := by intro o i p h; simp [empty] at h
  stored := by intro o b e h; simp [empty] at h
  sorted := by intro o b h; simp [empty] at h
  distinct := by intro o b h; simp [empty] at h
  nonempty := by intro o b h; simp [empty] at h

theorem Inv_insert_user (db : OptimizedDatabase) (u : User) (h : Inv db) :
    Inv (insert_user db u) where
  key_eq := h.key_eq
  indexed := h.indexed
  stored := h.stored
  sorted := h.sorted
  distinct := h.distinct
  nonempty := h.nonempty

/-- Replacing a table record by one that differs only in its counters keeps the
invariant. -/
theorem Inv_set_counters (db : OptimizedDatabase) (o i : Int) (p q : Post) (h : Inv db)
    (hp : db.posts (o, i) = some p) (hq : same_post q p) :
    Inv { db with posts := map_set db.posts (o, i) q } where
  key_eq := by
    intro o1 i1 p1 h1
    by_cases hk : (o1, i1) = (o, i)
    · simp only [hk, map_set_same, Option.some.injEq] at h1
      subst h1
      obtain ⟨h2, h3⟩ := h.key_eq o i p hp
      obtain ⟨e1, e2, -, -⟩ := hq
      cases hk
      exact ⟨by rw [e2, h2], by rw [e1, h3]⟩
    · simp only [map_set_other _ _ _ _ hk] at h1
      exact h.key_eq o1 i1 p1 h1
  indexed := by
    intro o1 i1 p1 h1
    by_cases hk : (o1, i1) = (o, i)
    · simp only [hk, map_set_same, Option.some.injEq] at h1
      subst h1
      cases hk
      obtain ⟨b, hb, e, he, hs⟩ := h.indexed o i p hp
      refine ⟨b, hb, e, he, ?_⟩
      unfold same_post at *
      omega
    · simp only [map_set_other _ _ _ _ hk] at h1
      exact h.indexed o1 i1 p1 h1
  stored := by
    intro o1 b e hb he
    obtain ⟨h1, p1, h2, h3⟩ := h.stored o1 b e hb he
    refine ⟨h1, ?_⟩
    by_cases hk : (o1, e.Id) = (o, i)
    · refine ⟨q, by simp only [hk, map_set_same], ?_⟩
      rw [hk, hp] at h2
      cases h2
      unfold same_post at *
      omega
    · exact ⟨p1, by simp only [map_set_other _ _ _ _ hk, h2], h3⟩
  sorted := h.sorted
  distinct := h.distinct
  nonempty := h.nonempty

theorem Inv_like_post (db : OptimizedDatabase) (o i : Int) (h : Inv db) :
    Inv (like_post db o i) := by
  unfold like_post
  split
  · next p hp => exact Inv_set_counters db o i p _ h hp ⟨rfl, rfl, rfl, rfl⟩
  · exact h

theorem Inv_unlike_post (db : OptimizedDatabase) (o i : Int) (h : Inv db) :
    Inv (unlike_post db o i) := by
  unfold unlike_post
  split
  · next p hp => exact Inv_set_counters db o i p _ h hp ⟨rfl, rfl, rfl, rfl⟩
  · exact h

theorem Inv_repost_post (db : OptimizedDatabase) (o i : Int) (h : Inv db) :
    Inv (repost_post db o i) := by
  unfold repost_post
  split
  · next p hp => exact Inv_set_counters db o i p _ h hp ⟨rfl, rfl, rfl, rfl⟩
  · exact h

theorem insert_post_of_absent (db : OptimizedDatabase) (p : Post)
    (h : db.posts (p.OwnerId, p.Id) = none) :
    insert_post db p =
      { db with
        posts := map_set db.posts (p.OwnerId, p.Id) p
        owner_posts := map_set db.owner_posts p.OwnerId
          (multiset_insert CompareByDate p ((db.owner_posts p.OwnerId).getD [])) } := by
  unfold insert_post
  rw [h]

theorem insert_post_of_present (db : OptimizedDatabase) (p q : Post)
    (h : db.posts (p.OwnerId, p.Id) = some q) : insert_post db p = db := by
  unfold insert_post
  rw [h]

/-- What the invariant says about `owner_posts[o]` read with a default. -/
theorem Inv.bucket (db : OptimizedDatabase) (h : Inv db) (o : Int) :
    ((db.owner_posts o).getD []).Pairwise (fun x y => CompareByDate x y = true) ∧
    ((db.owner_posts o).getD []).Pairwise (fun x y => x.Id ≠ y.Id) ∧
    (∀ e ∈ (db.owner_posts o).getD [],
      e.OwnerId = o ∧ ∃ p, db.posts (o, e.Id) = some p ∧ same_post e p) := by
  cases hb : db.owner_posts o with
  | none => simp
  | some b =>
    exact ⟨h.sorted o b hb, h.distinct o b hb, fun e he => h.stored o b e hb he⟩

theorem Inv_insert_post (db : OptimizedDatabase) (p : Post) (h : Inv db) :
    Inv (insert_post db p) := by
  cases hp : db.posts (p.OwnerId, p.Id) with
  | some q => rw [insert_post_of_present db p q hp]; exact h
  | none =>
    rw [insert_post_of_absent db p hp]
    obtain ⟨hsorted, hdistinct, hstored⟩ := h.bucket db p.OwnerId
    have hfresh : ∀ e ∈ (db.owner_posts p.OwnerId).getD [], e.Id ≠ p.Id := by
      intro e he hid
      obtain ⟨-, q, hq, -⟩ := hstored e he
      rw [hid, hp] at hq
      cases hq
    constructor
    · intro o i q hq
      by_cases hk : (o, i) = (p.OwnerId, p.Id)
      · simp only [hk, map_set_same, Option.some.injEq] at hq
        cases hk
        subst hq
        exact ⟨rfl, rfl⟩
      · simp only [map_set_other _ _ _ _ hk] at hq
        exact h.key_eq o i q hq
    · intro o i q hq
      by_cases hk : (o, i) = (p.OwnerId, p.Id)
      · simp only [hk, map_set_same, Option.some.injEq] at hq
        cases hk
        subst hq
        exact ⟨_, map_set_same _ _ _, p, (mem_multiset_insert _ _ _ _).mpr (Or.inl rfl),
          rfl, rfl, rfl, rfl⟩
      · simp only [map_set_other _ _ _ _ hk] at hq
        obtain ⟨b, hb, e, he, hs⟩ := h.indexed o i q hq
        by_cases ho : o = p.OwnerId
        · subst ho
          refine ⟨_, map_set_same _ _ _, e, (mem_multiset_insert _ _ _ _).mpr (Or.inr ?_), hs⟩
          rw [hb]
          exact he
        · exact ⟨b, by simp only [map_set_other _ _ _ _ ho, hb], e, he, hs⟩
    · intro o b e hb he
      by_cases ho : o = p.OwnerId
      · subst ho
        simp only [map_set_same, Option.some.injEq] at hb
        subst hb
        rcases (mem_multiset_insert _ _ _ _).mp he with rfl | he
        · exact ⟨rfl, e, map_set_same _ _ _, rfl, rfl, rfl, rfl⟩
        · obtain ⟨h1, q, hq, hs⟩ := hstored e he
          refine ⟨h1, q, ?_, hs⟩
          have hk : (p.OwnerId, e.Id) ≠ (p.OwnerId, p.Id) := by
            intro hc
            exact hfresh e he (Prod.mk.inj hc).2
          simp only [map_set_other _ _ _ _ hk, hq]
      · simp only [map_set_other _ _ _ _ ho] at hb
        obtain ⟨h1, q, hq, hs⟩ := h.stored o b e hb he
        refine ⟨h1, q, ?_, hs⟩
        have hk : (o, e.Id) ≠ (p.OwnerId, p.Id) := by
          intro hc
          exact ho (Prod.mk.inj hc).1
        simp only [map_set_other _ _ _ _ hk, hq]
    · intro o b hb
      by_cases ho : o = p.OwnerId
      · subst ho
        simp only [map_set_same, Option.some.injEq] at hb
        subst hb
        exact pairwise_multiset_insert CompareByDate (fun _ _ _ => CompareByDate_trans) p _ hsorted
          (fun y hy => CompareByDate_total (fun hc => hfresh y hy hc.symm))
      · simp only [map_set_other _ _ _ _ ho] at hb
        exact h.sorted o b hb
    · intro o b hb
      by_cases ho : o = p.OwnerId
      · subst ho
        simp only [map_set_same, Option.some.injEq] at hb
        subst hb
        refine ((multiset_insert_perm CompareByDate p _).pairwise_iff ?_).mpr
          (List.pairwise_cons.mpr ⟨fun a ha hc => hfresh a ha hc.symm, hdistinct⟩)
        intro a b hab hc
        exact hab hc.symm
      · simp only [map_set_other _ _ _ _ ho] at hb
        exact h.distinct o b hb
    · intro o b hb
      by_cases ho : o = p.OwnerId
      · subst ho
        simp only [map_set_same, Option.some.injEq] at hb
        subst hb
        exact multiset_insert_ne_nil _ _ _
      · simp only [map_set_other _ _ _ _ ho] at hb
        exact h.nonempty o b hb

/-- Under the invariant a `delete_post` on a stored key returns normally, removes
the key from the Post Table, and filters the entry with that identifier out of
the owner's set, dropping the set when it becomes empty. -/
theorem delete_post_of_present (db : OptimizedDatabase) (h : Inv db) (o i : Int) (p : Post)
    (hp : db.posts (o, i) = some p) :
    ∃ b, db.owner_posts o = some b ∧
      delete_post db o i = (.ok (),
        { db with
          owner_posts :=
            if (b.filter (fun x => decide (x.Id ≠ i))).isEmpty then map_erase db.owner_posts o
            else map_set db.owner_posts o (b.filter (fun x => decide (x.Id ≠ i)))
          posts := map_erase db.posts (o, i) }) := by
  obtain ⟨b, hb, e, he, hs⟩ := h.indexed o i p hp
  obtain ⟨-, hpid⟩ := h.key_eq o i p hp
  refine ⟨b, hb, ?_⟩
  obtain ⟨h1, h2⟩ := eraseIdx_multiset_find p b (h.sorted o b hb) (h.distinct o b hb) e he
    hs.1 hs.2.2.2
  unfold delete_post
  simp only [hp, hb, Option.getD_some, ne_eq, h1, not_false_eq_true, if_true, h2, hpid]

theorem delete_post_of_absent (db : OptimizedDatabase) (o i : Int)
    (hp : db.posts (o, i) = none) : delete_post db o i = (.error .PostNotFound, db) := by
  unfold delete_post
  simp only [hp]

/-- The owner index after the bucket of `o` has been replaced by `b` and dropped
when empty. -/
theorem owner_posts_after_erase (m : Int → Option (List Post)) (o : Int) (b : List Post)
    (q : Int) :
    (if b.isEmpty then map_erase m o else map_set m o b) q =
      if q = o then (if b.isEmpty then none else some b) else m q := by
  by_cases hq : q = o <;> by_cases hb : b.isEmpty = true <;> simp [hq, hb, map_erase, map_set]

theorem Inv_delete_post (db : OptimizedDatabase) (o i : Int) (h : Inv db) :
    Inv (delete_post db o i).2 := by
  cases hp : db.posts (o, i) with
  | none => rw [delete_post_of_absent db o i hp]; exact h
  | some p =>
    obtain ⟨b, hb, heq⟩ := delete_post_of_present db h o i p hp
    rw [heq]
    constructor
    · intro o1 i1 q hq
      by_cases hk : (o1, i1) = (o, i)
      · simp [hk, map_erase_same] at hq
      · simp only [map_erase_other _ _ _ hk] at hq
        exact h.key_eq o1 i1 q hq
    · intro o1 i1 q hq
      by_cases hk : (o1, i1) = (o, i)
      · simp [hk, map_erase_same] at hq
      · simp only [map_erase_other _ _ _ hk] at hq
        obtain ⟨b1, hb1, e, he, hs⟩ := h.indexed o1 i1 q hq
        simp only [owner_posts_after_erase]
        by_cases ho : o1 = o
        · subst ho
          rw [hb] at hb1
          cases hb1
          have hid : e.Id ≠ i := by
            intro hc
            apply hk
            rw [← hc, hs.1, (h.key_eq o1 i1 q hq).2]
          have hmem : e ∈ b.filter (fun x => decide (x.Id ≠ i)) := by
            simp [List.mem_filter, he, hid]
          have hne : (b.filter (fun x => decide (x.Id ≠ i))).isEmpty = false := by
            cases hf : b.filter (fun x => decide (x.Id ≠ i)) with
            | nil => rw [hf] at hmem; simp at hmem
            | cons _ _ => rfl
          exact ⟨_, by simp only [if_true, hne, Bool.false_eq_true, if_false], e, hmem, hs⟩
        · exact ⟨b1, by simp only [ho, if_false, hb1], e, he, hs⟩
    · intro o1 b1 e hb1 he
      simp only [owner_posts_after_erase] at hb1
      by_cases ho : o1 = o
      · subst ho
        simp only [if_true] at hb1
        split at hb1
        · cases hb1
        · simp only [Option.some.injEq] at hb1
          subst hb1
          obtain ⟨he1, he2⟩ := List.mem_filter.mp he
          have hid : e.Id ≠ i := by simpa using he2
          obtain ⟨h1, q, hq, hs⟩ := h.stored o1 b e hb he1
          refine ⟨h1, q, ?_, hs⟩
          have hk : (o1, e.Id) ≠ (o1, i) := fun hc => hid (Prod.mk.inj hc).2
          simp only [map_erase_other _ _ _ hk, hq]
      · simp only [ho, if_false] at hb1
        obtain ⟨h1, q, hq, hs⟩ := h.stored o1 b1 e hb1 he
        refine ⟨h1, q, ?_, hs⟩
        have hk : (o1, e.Id) ≠ (o, i) := fun hc => ho (Prod.mk.inj hc).1
        simp only [map_erase_other _ _ _ hk, hq]
    · intro o1 b1 hb1
      simp only [owner_posts_after_erase] at hb1
      by_cases ho : o1 = o
      · subst ho
        simp only [if_true] at hb1
        split at hb1
        · cases hb1
        · simp only [Option.some.injEq] at hb1
          subst hb1
          exact (h.sorted o1 b hb).filter _
      · simp only [ho, if_false] at hb1
        exact h.sorted o1 b1 hb1
    · intro o1 b1 hb1
      simp only [owner_posts_after_erase] at hb1
      by_cases ho : o1 = o
      · subst ho
        simp only [if_true] at hb1
        split at hb1
        · cases hb1
        · simp only [Option.some.injEq] at hb1
          subst hb1
          exact (h.distinct o1 b hb).filter _
      · simp only [ho, if_false] at hb1
        exact h.distinct o1 b1 hb1
    · intro o1 b1 hb1
      simp only [owner_posts_after_erase] at hb1
      by_cases ho : o1 = o
      · subst ho
        simp only [if_true] at hb1
        split at hb1
        · cases hb1
        · next hne =>
          simp only [Option.some.injEq] at hb1
          subst hb1
          intro hc
          apply hne
          rw [hc]
          rfl
      · simp only [ho, if_false] at hb1
        exact h.nonempty o1 b1 hb1

theorem Inv_apply (db : OptimizedDatabase) (op : Op) (h : Inv db) : Inv (apply db op) := by
  cases op with
  | insert_user u => exact Inv_insert_user db u h
  | insert_post p => exact Inv_insert_post db p h
  | delete_post o i => exact Inv_delete_post db o i h
  | like_post o i => exact Inv_like_post db o i h
  | unlike_post o i => exact Inv_unlike_post db o i h
  | repost_post o i => exact Inv_repost_post db o i h

theorem Inv_of_Reachable {db : OptimizedDatabase} (h : Reachable db) : Inv db := by
  induction h with
  | init => exact Inv_empty
  | step op _ ih => exact Inv_apply _ op ih

theorem Reachable_run {db : OptimizedDatabase} (h : Reachable db) (ops : List Op) :
    Reachable (run db ops) := by
  induction ops generalizing db with
  | nil => exact h
  | cons op ops ih => exact ih (Reachable.step op h)

theorem length_filter_id_eq_one (b : List Post) (hd : b.Pairwise (fun x y => x.Id ≠ y.Id))
    (e : Post) (he : e ∈ b) : (b.filter (fun x => decide (x.Id = e.Id))).length = 1 := by
  induction b with
  | nil => simp at he
  | cons y ys ih =>
    rw [List.pairwise_cons] at hd
    rcases List.mem_cons.mp he with rfl | he1
    · have : ys.filter (fun x => decide (x.Id = e.Id)) = [] := by
        rw [List.filter_eq_nil_iff]
        intro a ha
        have := hd.1 a ha
        simp only [decide_eq_true_eq]
        omega
      simp [List.filter_cons, this]
    · have hne : y.Id ≠ e.Id := hd.1 e he1
      simp [List.filter_cons, hne, ih hd.2 he1]

/-! ## The scanned range -/

theorem in_scan_iff (dateBegin dateEnd : Int) (x : Post) :
    in_scan dateBegin dateEnd x = true ↔
      (dateBegin < x.Date ∨ (x.Date = dateBegin ∧ 0 ≤ x.Id)) ∧
      (x.Date < dateEnd ∨ (x.Date = dateEnd ∧ x.Id ≤ 0)) := by
  simp only [in_scan, Bool.and_eq_true, Bool.not_eq_true', CompareByDate_false_iff, dummy]
  omega

/-- With `dateBegin ≤ dateEnd` the loop bounds are in order, so the scan returns. -/
theorem scan_returns (b : List Post) (dateBegin dateEnd : Int) (h : dateBegin ≤ dateEnd) :
    ∃ r, scan b dateBegin dateEnd = .ok r := by
  have hle := lower_bound_le_upper_bound CompareByDate (dummy dateBegin) (dummy dateEnd)
    (fun y hy => by
      rw [CompareByDate_iff] at hy
      rw [CompareByDate_false_iff]
      simp only [dummy] at hy ⊢
      omega) b
  simp only [scan, iterate, if_pos hle]
  exact ⟨_, rfl⟩

/-- On a strictly ordered set a scan that returns yields the entries lying
between the two probes. -/
theorem scan_eq_filter (b : List Post) (hs : b.Pairwise (fun x y => CompareByDate x y = true))
    (dateBegin dateEnd : Int) (r : List Post) (h : scan b dateBegin dateEnd = .ok r) :
    r = b.filter (in_scan dateBegin dateEnd) := by
  simp only [scan, iterate] at h
  split at h
  · next hle =>
    simp only [Except.ok.injEq] at h
    rw [← h]
    exact drop_take_eq_filter CompareByDate (fun _ _ _ => CompareByDate_trans) _ _ b hs hle
  · cases h

/-! ## The selection loop -/

section selection

variable {α : Type}

theorem pairwise_pq_push (comp : α → α → Bool) (r : α → α → Prop)
    (htrans : ∀ a b c, r a b → r b c → r a c)
    (h1 : ∀ a b, comp a b = true → r b a) (h2 : ∀ a b, comp a b = false → r a b)
    (x : α) (s : List α) (hs : s.Pairwise r) : (pq_push comp x s).Pairwise r := by
  induction s with
  | nil => simp [pq_push]
  | cons y ys ih =>
    rw [List.pairwise_cons] at hs
    simp only [pq_push]
    by_cases hxy : comp x y = true
    · rw [if_pos hxy]
      refine List.pairwise_cons.mpr ⟨?_, ih hs.2⟩
      intro z hz
      rcases (mem_pq_push comp x z ys).mp hz with rfl | hz
      · exact h1 _ _ hxy
      · exact hs.1 z hz
    · rw [if_neg hxy]
      have hxy1 : r x y := h2 _ _ (by simpa using hxy)
      refine List.pairwise_cons.mpr ⟨?_, List.pairwise_cons.mpr hs⟩
      intro z hz
      rcases List.mem_cons.mp hz with rfl | hz
      · exact hxy1
      · exact htrans _ _ _ hxy1 (hs.1 z hz)

/-- The heap stays in `top()` order through the selection loop. -/
theorem bounded_select_pairwise (comp better : α → α → Bool) (r : α → α → Prop)
    (htrans : ∀ a b c, r a b → r b c → r a c)
    (h1 : ∀ a b, comp a b = true → r b a) (h2 : ∀ a b, comp a b = false → r a b)
    (k : Int) (xs heap res : List α) (hs : heap.Pairwise r)
    (h : bounded_select comp better k heap xs = .ok res) : res.Pairwise r := by
  induction xs generalizing heap with
  | nil =>
    simp only [bounded_select, Except.ok.injEq] at h
    rw [← h]
    exact hs
  | cons x xs ih =>
    simp only [bounded_select] at h
    split at h
    · next heap1 hstep =>
      refine ih heap1 ?_ h
      simp only [select_step] at hstep
      split at hstep
      · simp only [Except.ok.injEq] at hstep
        rw [← hstep]
        exact pairwise_pq_push comp r htrans h1 h2 x heap hs
      · split at hstep
        · cases hstep
        · next top rest _ =>
          rw [List.pairwise_cons] at hs
          split at hstep
          · simp only [Except.ok.injEq] at hstep
            rw [← hstep]
            exact pairwise_pq_push comp r htrans h1 h2 x rest hs.2
          · simp only [Except.ok.injEq] at hstep
            rw [← hstep]
            exact List.pairwise_cons.mpr hs
    · cases h

/-- Everything in the final heap was in the initial heap or among the scanned
elements. -/
theorem bounded_select_subset (comp better : α → α → Bool) (k : Int) (xs heap res : List α)
    (h : bounded_select comp better k heap xs = .ok res) :
    ∀ y ∈ res, y ∈ heap ∨ y ∈ xs := by
  induction xs generalizing heap with
  | nil =>
    simp only [bounded_select, Except.ok.injEq] at h
    rw [← h]
    intro y hy
    exact Or.inl hy
  | cons x xs ih =>
    simp only [bounded_select] at h
    split at h
    · next heap1 hstep =>
      intro y hy
      have hsub : ∀ z ∈ heap1, z = x ∨ z ∈ heap := by
        simp only [select_step] at hstep
        split at hstep
        · simp only [Except.ok.injEq] at hstep
          rw [← hstep]
          intro z hz
          exact (mem_pq_push comp x z heap).mp hz
        · split at hstep
          · cases hstep
          · next top rest _ =>
            split at hstep
            · simp only [Except.ok.injEq] at hstep
              rw [← hstep]
              intro z hz
              rcases (mem_pq_push comp x z rest).mp hz with h3 | h3
              · exact Or.inl h3
              · exact Or.inr (List.mem_cons_of_mem _ h3)
            · simp only [Except.ok.injEq] at hstep
              rw [← hstep]
              intro z hz
              exact Or.inr hz
      rcases ih heap1 h y hy with h3 | h3
      · rcases hsub y h3 with h4 | h4
        · exact Or.inr (by rw [h4]; exact List.mem_cons_self _ _)
        · exact Or.inl h4
      · exact Or.inr (List.mem_cons_of_mem _ h3)
    · cases h

/-- When `k` converts to a nonzero `size_t`, `top()` is never called on an empty
heap and the selection loop returns. -/
theorem bounded_select_returns (comp better : α → α → Bool) (k : Int)
    (hk : size_lt 0 k = true) (xs heap : List α) :
    ∃ res, bounded_select comp better k heap xs = .ok res := by
  induction xs generalizing heap with
  | nil => exact ⟨heap, rfl⟩
  | cons x xs ih =>
    have hstep : ∃ heap1, select_step comp better k heap x = .ok heap1 := by
      simp only [select_step]
      split
      · exact ⟨_, rfl⟩
      · next hlt =>
        cases heap with
        | nil => exact absurd hk hlt
        | cons top rest =>
          simp only
          split
          · exact ⟨_, rfl⟩
          · exact ⟨_, rfl⟩
    obtain ⟨heap1, h1⟩ := hstep
    obtain ⟨res, h2⟩ := ih heap1
    exact ⟨res, by simp only [bounded_select, h1, h2]⟩

end selection

theorem size_lt_zero_of_int (k : Int) (h0 : k ≠ 0) (h1 : -2147483648 ≤ k) (h2 : k ≤ 2147483647) :
    size_lt 0 k = true := by
  simp only [size_lt, decide_eq_true_eq]
  omega

/-! ## The post queries -/

theorem top_k_post_by_likes_ok (db : OptimizedDatabase) (k o dateBegin dateEnd : Int)
    (res : List Post) (h : top_k_post_by_likes db k o dateBegin dateEnd = .ok res) :
    (db.owner_posts o = none ∧ res = []) ∨
    ∃ b r heap, db.owner_posts o = some b ∧ scan b dateBegin dateEnd = .ok r ∧
      bounded_select CompareByLikes (fun x top => decide (x.Likes > top.Likes)) k [] r = .ok heap ∧
      res = heap.reverse := by
  unfold top_k_post_by_likes at h
  split at h
  · next hb =>
    simp only [Except.ok.injEq] at h
    exact Or.inl ⟨hb, h.symm⟩
  · next b hb =>
    split at h
    · cases h
    · next r hr =>
      split at h
      · cases h
      · next heap hheap =>
        simp only [Except.ok.injEq] at h
        exact Or.inr ⟨b, r, heap, hb, hr, hheap, h.symm⟩

theorem top_k_post_by_reposts_ok (db : OptimizedDatabase) (k o dateBegin dateEnd : Int)
    (res : List Post) (h : top_k_post_by_reposts db k o dateBegin dateEnd = .ok res) :
    (db.owner_posts o = none ∧ res = []) ∨
    ∃ b r heap, db.owner_posts o = some b ∧ scan b dateBegin dateEnd = .ok r ∧
      bounded_select CompareByReposts (fun x top => decide (x.Reposts > top.Reposts)) k [] r
        = .ok heap ∧
      res = heap.reverse := by
  unfold top_k_post_by_reposts at h
  split at h
  · next hb =>
    simp only [Except.ok.injEq] at h
    exact Or.inl ⟨hb, h.symm⟩
  · next b hb =>
    split at h
    · cases h
    · next r hr =>
      split at h
      · cases h
      · next heap hheap =>
        simp only [Except.ok.injEq] at h
        exact Or.inr ⟨b, r, heap, hb, hr, hheap, h.symm⟩

theorem top_k_post_by_likes_returns (db : OptimizedDatabase) (k o dateBegin dateEnd : Int)
    (hk : size_lt 0 k = true) (hd : dateBegin ≤ dateEnd) :
    ∃ res, top_k_post_by_likes db k o dateBegin dateEnd = .ok res := by
  unfold top_k_post_by_likes
  cases db.owner_posts o with
  | none => exact ⟨[], rfl⟩
  | some b =>
    obtain ⟨r, hr⟩ := scan_returns b dateBegin dateEnd hd
    obtain ⟨heap, hheap⟩ := bounded_select_returns CompareByLikes
      (fun x top => decide (x.Likes > top.Likes)) k hk r []
    exact ⟨heap.reverse, by simp only [hr, hheap]⟩

theorem top_k_post_by_reposts_returns (db : OptimizedDatabase) (k o dateBegin dateEnd : Int)
    (hk : size_lt 0 k = true) (hd : dateBegin ≤ dateEnd) :
    ∃ res, top_k_post_by_reposts db k o dateBegin dateEnd = .ok res := by
  unfold top_k_post_by_reposts
  cases db.owner_posts o with
  | none => exact ⟨[], rfl⟩
  | some b =>
    obtain ⟨r, hr⟩ := scan_returns b dateBegin dateEnd hd
    obtain ⟨heap, hheap⟩ := bounded_select_returns CompareByReposts
      (fun x top => decide (x.Reposts > top.Reposts)) k hk r []
    exact ⟨heap.reverse, by simp only [hr, hheap]⟩

/-- Under the invariant, whatever a selection over a scan of the bucket of `o`
keeps is an entry of that bucket, filed under `o`, dated inside the window. -/
theorem selected_in_window (db : OptimizedDatabase) (hinv : Inv db) (o dateBegin dateEnd : Int)
    (comp better : Post → Post → Bool) (k : Int) (b r heap : List Post)
    (hb : db.owner_posts o = some b) (hr : scan b dateBegin dateEnd = .ok r)
    (hheap : bounded_select comp better k [] r = .ok heap) :
    ∀ p ∈ heap.reverse, p.OwnerId = o ∧ dateBegin ≤ p.Date ∧ p.Date ≤ dateEnd ∧
      ∃ b1, db.owner_posts o = some b1 ∧ p ∈ b1 := by
  intro p hp
  have hp1 : p ∈ r := by
    rcases bounded_select_subset comp better k r [] heap hheap p (List.mem_reverse.mp hp) with h | h
    · simp at h
    · exact h
  rw [scan_eq_filter b (hinv.sorted o b hb) dateBegin dateEnd r hr] at hp1
  obtain ⟨hp2, hp3⟩ := List.mem_filter.mp hp1
  rw [in_scan_iff] at hp3
  exact ⟨(hinv.stored o b p hb hp2).1, by omega, by omega, b, hb, hp2⟩

/-! ## The author queries -/

theorem count_add_keys (key v : Int) (count : List (Int × Int)) :
    (count_add key v count).map Prod.fst =
      if key ∈ count.map Prod.fst then count.map Prod.fst else count.map Prod.fst ++ [key] := by
  induction count with
  | nil => simp [count_add]
  | cons e rest ih =>
    obtain ⟨q, c⟩ := e
    by_cases hq : q = key
    · simp [count_add, hq]
    · have hq1 : ¬ key = q := fun hc => hq hc.symm
      simp only [count_add, hq, if_false, List.map_cons, ih, List.mem_cons, hq1, false_or]
      split <;> simp

theorem aggregate_keys_nodup (weight : Post → Int) (r : List Post) (count : List (Int × Int))
    (h : (count.map Prod.fst).Nodup) : ((aggregate weight count r).map Prod.fst).Nodup := by
  induction r generalizing count with
  | nil => exact h
  | cons p ps ih =>
    simp only [aggregate]
    apply ih
    rw [count_add_keys]
    split
    · exact h
    · next hmem =>
      rw [List.nodup_append]
      refine ⟨h, List.nodup_singleton _, ?_⟩
      intro a ha hb
      rw [List.mem_singleton] at hb
      subst hb
      exact hmem ha

theorem aggregate_keys_mem (weight : Post → Int) (r : List Post) (count : List (Int × Int))
    (f : Int) :
    f ∈ (aggregate weight count r).map Prod.fst ↔
      f ∈ count.map Prod.fst ∨ f ∈ r.map Post.FromId := by
  induction r generalizing count with
  | nil => simp [aggregate]
  | cons p ps ih =>
    simp only [aggregate, ih, count_add_keys, List.map_cons, List.mem_cons]
    split
    · next hmem =>
      constructor
      · rintro (h | h)
        · exact Or.inl h
        · exact Or.inr (Or.inr h)
      · rintro (h | h | h)
        · exact Or.inl h
        · exact Or.inl (h ▸ hmem)
        · exact Or.inr h
    · simp only [List.mem_append, List.mem_singleton]
      tauto

/-- The aggregate has one entry per distinct author of the scanned posts. -/
theorem length_aggregate_le (weight : Post → Int) (r : List Post) :
    (aggregate weight [] r).length ≤ (r.map Post.FromId).dedup.length := by
  have hnd := aggregate_keys_nodup weight r [] (by simp)
  have hsub : (aggregate weight [] r).map Prod.fst ⊆ (r.map Post.FromId).dedup := by
    intro f hf
    rw [List.mem_dedup]
    rcases (aggregate_keys_mem weight r [] f).mp hf with h | h
    · simp at h
    · exact h
  have := (List.subperm_of_subset hnd hsub).length_le
  simpa using this

/-- While the heap has room for every remaining element, each one is pushed and
none is dropped. -/
theorem bounded_select_keeps_all {α : Type} (comp better : α → α → Bool) (k : Int)
    (xs heap : List α)
    (hroom : ((heap.length + xs.length : Nat) : Int) ≤ k % 18446744073709551616) :
    ∃ res, bounded_select comp better k heap xs = .ok res ∧ ∀ y, y ∈ heap ∨ y ∈ xs → y ∈ res := by
  induction xs generalizing heap with
  | nil =>
    refine ⟨heap, rfl, ?_⟩
    rintro y (h | h)
    · exact h
    · simp at h
  | cons x xs ih =>
    have hlt : size_lt heap.length k = true := by
      simp only [size_lt, decide_eq_true_eq]
      simp only [List.length_cons] at hroom
      omega
    have hstep : select_step comp better k heap x = .ok (pq_push comp x heap) := by
      simp only [select_step, hlt, if_true]
    obtain ⟨res, h1, h2⟩ := ih (pq_push comp x heap) (by
      simp only [length_pq_push]
      simp only [List.length_cons] at hroom
      omega)
    refine ⟨res, by simp only [bounded_select, hstep, h1], ?_⟩
    rintro y (h | h)
    · exact h2 y (Or.inl ((mem_pq_push comp x y heap).mpr (Or.inr h)))
    · rcases List.mem_cons.mp h with h | h
      · exact h2 y (Or.inl ((mem_pq_push comp x y heap).mpr (Or.inl h)))
      · exact h2 y (Or.inr h)

/-- The drain loop throws as soon as the heap holds an unregistered user. -/
theorem resolve_unregistered (db : OptimizedDatabase) (heap : List (Int × Int))
    (h : ∃ pair ∈ heap, db.users pair.2 = none) : resolve db heap = .error .UserNotFound := by
  induction heap with
  | nil => simp at h
  | cons e rest ih =>
    obtain ⟨total, userId⟩ := e
    cases hu : db.users userId with
    | none => simp [resolve, get_user, hu]
    | some u =>
      obtain ⟨pair, hmem, hnone⟩ := h
      rcases List.mem_cons.mp hmem with rfl | hmem
      · simp only at hnone
        rw [hu] at hnone
        cases hnone
      · simp [resolve, get_user, hu, ih ⟨pair, hmem, hnone⟩]

/-- If an entry of the bucket lying between the probes has an unregistered
author and the scanned posts have at most `k` distinct authors, the author query
throws `"User not found"`. -/
theorem top_k_authors_unregistered (weight : Post → Int) (db : OptimizedDatabase)
    (k o dateBegin dateEnd : Int) (b : List Post) (e : Post)
    (hb : db.owner_posts o = some b) (hs : b.Pairwise (fun x y => CompareByDate x y = true))
    (he : e ∈ b) (hin : in_scan dateBegin dateEnd e = true) (hu : db.users e.FromId = none)
    (hd : dateBegin ≤ dateEnd) (hk2 : k ≤ 2147483647)
    (hfew : ((((b.filter (in_scan dateBegin dateEnd)).map Post.FromId).dedup.length : Nat) : Int)
      ≤ k) :
    top_k_authors weight db k o dateBegin dateEnd = .error .UserNotFound := by
  obtain ⟨r, hr⟩ := scan_returns b dateBegin dateEnd hd
  have hreq := scan_eq_filter b hs dateBegin dateEnd r hr
  have her : e ∈ r := by
    rw [hreq]
    exact List.mem_filter.mpr ⟨he, hin⟩
  have hlen := length_aggregate_le weight r
  rw [← hreq] at hfew
  obtain ⟨heap, hheap, hall⟩ := bounded_select_keeps_all greater_pair
    (fun x top => decide (x.1 > top.1)) k
    ((aggregate weight [] r).map (fun pair => (pair.2, pair.1))) [] (by
      simp only [List.length_nil, List.length_map, Nat.zero_add]
      omega)
  have hkey : e.FromId ∈ (aggregate weight [] r).map Prod.fst :=
    (aggregate_keys_mem weight r [] e.FromId).mpr (Or.inr (List.mem_map_of_mem _ her))
  obtain ⟨⟨f, c⟩, hfc, hf⟩ := List.mem_map.mp hkey
  simp only at hf
  rw [← hf] at hu
  have hres := resolve_unregistered db heap
    ⟨(c, f), hall _ (Or.inr (List.mem_map.mpr ⟨(f, c), hfc, rfl⟩)), hu⟩
  unfold top_k_authors
  simp only [hb, hr, hheap, hres]

/-! ## Deleting a post undoes its insertion -/

theorem db_ext (a b : OptimizedDatabase) (h1 : ∀ q, a.users q = b.users q)
    (h2 : ∀ q, a.posts q = b.posts q) (h3 : ∀ q, a.owner_posts q = b.owner_posts q) : a = b := by
  cases a
  cases b
  simp only [OptimizedDatabase.mk.injEq]
  exact ⟨funext h1, funext h2, funext h3⟩

theorem delete_post_eq_without_post (db : OptimizedDatabase) (h : Inv db) (o i : Int) (p : Post)
    (hp : db.posts (o, i) = some p) : delete_post db o i = (.ok (), without_post db o i) := by
  obtain ⟨b, hb, heq⟩ := delete_post_of_present db h o i p hp
  rw [heq]
  refine Prod.ext rfl (db_ext _ _ (fun _ => rfl) (fun _ => rfl) ?_)
  intro q
  simp only [owner_posts_after_erase, without_post, hb, bucket_without]

theorem bucket_without_comm (i j : Int) (x : Option (List Post)) :
    bucket_without i (bucket_without j x) = bucket_without j (bucket_without i x) := by
  have key : ∀ (i j : Int) (b : List Post), bucket_without i (bucket_without j (some b)) =
      if ((b.filter (fun x => decide (x.Id ≠ j))).filter (fun x => decide (x.Id ≠ i))).isEmpty
      then none
      else some ((b.filter (fun x => decide (x.Id ≠ j))).filter (fun x => decide (x.Id ≠ i))) := by
    intro i j b
    simp only [bucket_without]
    by_cases h : (b.filter (fun x => decide (x.Id ≠ j))).isEmpty = true
    · have h1 : b.filter (fun x => decide (x.Id ≠ j)) = [] := List.isEmpty_iff.mp h
      rw [h1]
      rfl
    · simp only [h, Bool.false_eq_true, if_false, bucket_without]
  cases x with
  | none => rfl
  | some b =>
    rw [key i j b, key j i b]
    have hc : (b.filter (fun x => decide (x.Id ≠ j))).filter (fun x => decide (x.Id ≠ i)) =
        (b.filter (fun x => decide (x.Id ≠ i))).filter (fun x => decide (x.Id ≠ j)) := by
      simp only [List.filter_filter]
      congr 1
      funext x
      exact Bool.and_comm _ _
    rw [hc]

theorem getD_bucket_without (i : Int) (x : Option (List Post)) :
    (bucket_without i x).getD [] = (x.getD []).filter (fun y => decide (y.Id ≠ i)) := by
  cases x with
  | none => rfl
  | some b =>
    simp only [bucket_without, Option.getD_some]
    by_cases h : (b.filter (fun y => decide (y.Id ≠ i))).isEmpty = true
    · have h1 : b.filter (fun y => decide (y.Id ≠ i)) = [] := List.isEmpty_iff.mp h
      rw [h1]
      rfl
    · simp only [h, Bool.false_eq_true, if_false, Option.getD_some]

theorem without_post_comm (db : OptimizedDatabase) (o i o2 i2 : Int) :
    without_post (without_post db o2 i2) o i = without_post (without_post db o i) o2 i2 := by
  refine db_ext _ _ (fun _ => rfl) ?_ ?_
  · intro q
    simp only [without_post, map_erase]
    by_cases h1 : q = (o, i) <;> by_cases h2 : q = (o2, i2) <;> simp [h1, h2]
  · intro q
    simp only [without_post]
    by_cases ho : o = o2
    · subst ho
      by_cases hq : q = o
      · simp only [hq, if_true, bucket_without_comm]
      · simp only [hq, if_false]
    · have ho1 : ¬ o2 = o := fun hc => ho hc.symm
      by_cases hq : q = o
      · subst hq
        simp only [if_true, ho, if_false]
      · by_cases hq2 : q = o2
        · subst hq2
          simp only [if_true, ho1, if_false]
        · simp only [hq, hq2, if_false]

theorem Inv_without_post (db : OptimizedDatabase) (h : Inv db) (o i : Int) (p : Post)
    (hp : db.posts (o, i) = some p) : Inv (without_post db o i) := by
  have := Inv_delete_post db o i h
  rw [delete_post_eq_without_post db h o i p hp] at this
  exact this

theorem without_post_posts_other (db : OptimizedDatabase) (o i : Int) (key : Int × Int)
    (h : key ≠ (o, i)) : (without_post db o i).posts key = db.posts key := by
  simp only [without_post, map_erase_other _ _ _ h]

theorem without_post_posts_same (db : OptimizedDatabase) (o i : Int) :
    (without_post db o i).posts (o, i) = none := by
  simp only [without_post, map_erase_same]

theorem without_post_insert_user (db : OptimizedDatabase) (o i : Int) (u : User) :
    without_post (insert_user db u) o i = insert_user (without_post db o i) u := rfl

/-- Taking the post `(o, i)` out commutes with overwriting the record of a key. -/
theorem without_post_set_counters (db : OptimizedDatabase) (o i : Int) (key : Int × Int)
    (q : Post) :
    without_post { db with posts := map_set db.posts key q } o i =
      if key = (o, i) then without_post db o i
      else { without_post db o i with posts := map_set (without_post db o i).posts key q } := by
  by_cases hk : key = (o, i)
  · rw [if_pos hk]
    refine db_ext _ _ (fun _ => rfl) ?_ (fun _ => rfl)
    intro x
    simp only [without_post, map_erase, map_set, hk]
    by_cases hx : x = (o, i) <;> simp [hx]
  · rw [if_neg hk]
    refine db_ext _ _ (fun _ => rfl) ?_ (fun _ => rfl)
    intro x
    simp only [without_post, map_erase, map_set]
    by_cases hx : x = (o, i)
    · have hne : ¬ (o, i) = key := fun hc => hk hc.symm
      simp only [hx, if_true, if_neg hne]
    · simp only [hx, if_false]

theorem without_post_like_post (db : OptimizedDatabase) (o i o2 i2 : Int) :
    without_post (like_post db o2 i2) o i = like_post (without_post db o i) o2 i2 := by
  unfold like_post
  by_cases hk : (o2, i2) = (o, i)
  · rw [hk, without_post_posts_same]
    cases hq : db.posts (o, i) with
    | none => rfl
    | some q => simp only [without_post_set_counters, if_true]
  · rw [without_post_posts_other _ _ _ _ hk]
    cases hq : db.posts (o2, i2) with
    | none => rfl
    | some q => simp only [without_post_set_counters, hk, if_false]

theorem without_post_unlike_post (db : OptimizedDatabase) (o i o2 i2 : Int) :
    without_post (unlike_post db o2 i2) o i = unlike_post (without_post db o i) o2 i2 := by
  unfold unlike_post
  by_cases hk : (o2, i2) = (o, i)
  · rw [hk, without_post_posts_same]
    cases hq : db.posts (o, i) with
    | none => rfl
    | some q => simp only [without_post_set_counters, if_true]
  · rw [without_post_posts_other _ _ _ _ hk]
    cases hq : db.posts (o2, i2) with
    | none => rfl
    | some q => simp only [without_post_set_counters, hk, if_false]

theorem without_post_repost_post (db : OptimizedDatabase) (o i o2 i2 : Int) :
    without_post (repost_post db o2 i2) o i = repost_post (without_post db o i) o2 i2 := by
  unfold repost_post
  by_cases hk : (o2, i2) = (o, i)
  · rw [hk, without_post_posts_same]
    cases hq : db.posts (o, i) with
    | none => rfl
    | some q => simp only [without_post_set_counters, if_true]
  · rw [without_post_posts_other _ _ _ _ hk]
    cases hq : db.posts (o2, i2) with
    | none => rfl
    | some q => simp only [without_post_set_counters, hk, if_false]

theorem without_post_delete_post (db : OptimizedDatabase) (h : Inv db) (o i o2 i2 : Int)
    (p : Post) (hp : db.posts (o, i) = some p) (hk : (o2, i2) ≠ (o, i)) :
    without_post (delete_post db o2 i2).2 o i = (delete_post (without_post db o i) o2 i2).2 := by
  cases hq : db.posts (o2, i2) with
  | none =>
    rw [delete_post_of_absent db o2 i2 hq, delete_post_of_absent (without_post db o i) o2 i2
      (by rw [without_post_posts_other _ _ _ _ hk]; exact hq)]
  | some q =>
    rw [delete_post_eq_without_post db h o2 i2 q hq,
      delete_post_eq_without_post (without_post db o i) (Inv_without_post db h o i p hp) o2 i2 q
        (by rw [without_post_posts_other _ _ _ _ hk]; exact hq)]
    exact without_post_comm db o i o2 i2

theorem without_post_insert_post (db : OptimizedDatabase) (h : Inv db) (o i : Int) (q : Post)
    (hk : (q.OwnerId, q.Id) ≠ (o, i)) :
    without_post (insert_post db q) o i = insert_post (without_post db o i) q := by
  cases hq : db.posts (q.OwnerId, q.Id) with
  | some q1 =>
    rw [insert_post_of_present db q q1 hq, insert_post_of_present (without_post db o i) q q1
      (by rw [without_post_posts_other _ _ _ _ hk]; exact hq)]
  | none =>
    rw [insert_post_of_absent db q hq, insert_post_of_absent (without_post db o i) q
      (by rw [without_post_posts_other _ _ _ _ hk]; exact hq)]
    refine db_ext _ _ (fun _ => rfl) ?_ ?_
    · intro x
      simp only [without_post, map_erase, map_set]
      by_cases hx : x = (o, i)
      · have hne : ¬ (o, i) = (q.OwnerId, q.Id) := fun hc => hk hc.symm
        simp only [hx, if_true, if_neg hne]
      · simp only [hx, if_false]
    · intro x
      simp only [without_post]
      by_cases ho : q.OwnerId = o
      · have hid : q.Id ≠ i := fun hc => hk (Prod.ext ho hc)
        by_cases hx : x = o
        · subst hx
          subst ho
          simp only [if_true, map_set_same, getD_bucket_without]
          have hkeep : decide (q.Id ≠ i) = true := by simpa using hid
          have hfilter := filter_multiset_insert CompareByDate (fun _ _ _ => CompareByDate_trans)
            (fun x => decide (x.Id ≠ i)) q hkeep _ (h.bucket db q.OwnerId).1
          simp only [bucket_without, hfilter]
          have hne : (multiset_insert CompareByDate q
              (((db.owner_posts q.OwnerId).getD []).filter (fun x => decide (x.Id ≠ i)))).isEmpty
              = false := by
            cases hm : multiset_insert CompareByDate q
              (((db.owner_posts q.OwnerId).getD []).filter (fun x => decide (x.Id ≠ i))) with
            | nil => exact absurd hm (multiset_insert_ne_nil _ _ _)
            | cons _ _ => rfl
          simp only [hne, Bool.false_eq_true, if_false]
        · have hx1 : x ≠ q.OwnerId := fun hc => hx (hc.trans ho)
          simp only [hx, if_false, map_set_other _ _ _ _ hx1]
      · by_cases hx : x = o
        · subst hx
          have hx1 : x ≠ q.OwnerId := fun hc => ho hc.symm
          simp only [if_true, map_set_other _ _ _ _ hx1]
        · simp only [hx, if_false]
          by_cases hx2 : x = q.OwnerId
          · subst hx2
            simp only [map_set_same, ho, if_false]
          · simp only [map_set_other _ _ _ _ hx2, hx, if_false]

theorem delete_post_posts_same (db : OptimizedDatabase) (o i : Int) :
    (delete_post db o i).2.posts (o, i) = none := by
  cases hp : db.posts (o, i) with
  | none => rw [delete_post_of_absent db o i hp]; exact hp
  | some p =>
    unfold delete_post
    simp only [hp, map_erase_same]

theorem posts_apply_of_spares (db : OptimizedDatabase) (o i : Int) (op : Op)
    (hs : Op.spares o i op) :
    ((∃ p, db.posts (o, i) = some p) → ∃ p, (apply db op).posts (o, i) = some p) ∧
    (db.posts (o, i) = none → (apply db op).posts (o, i) = none) := by
  cases op with
  | insert_user u => exact ⟨fun h => h, fun h => h⟩
  | insert_post q =>
    have hk : (o, i) ≠ (q.OwnerId, q.Id) := fun hc => hs hc.symm
    cases hq : db.posts (q.OwnerId, q.Id) with
    | some q1 =>
      simp only [apply, insert_post_of_present db q q1 hq]
      exact ⟨fun h => h, fun h => h⟩
    | none =>
      simp only [apply, insert_post_of_absent db q hq, map_set_other _ _ _ _ hk]
      exact ⟨fun h => h, fun h => h⟩
  | delete_post o2 i2 =>
    have hk : (o, i) ≠ (o2, i2) := fun hc => hs hc.symm
    cases hq : db.posts (o2, i2) with
    | none =>
      simp only [apply, delete_post_of_absent db o2 i2 hq]
      exact ⟨fun h => h, fun h => h⟩
    | some q =>
      simp only [apply, delete_post, hq, map_erase_other _ _ _ hk]
      exact ⟨fun h => h, fun h => h⟩
  | like_post o2 i2 =>
    simp only [apply, like_post]
    cases hq : db.posts (o2, i2) with
    | none => exact ⟨fun h => h, fun h => h⟩
    | some q =>
      by_cases hk : (o, i) = (o2, i2)
      · simp only [hk, map_set_same]
        exact ⟨fun _ => ⟨_, rfl⟩, fun h => by rw [h] at hq; cases hq⟩
      · simp only [map_set_other _ _ _ _ hk]
        exact ⟨fun h => h, fun h => h⟩
  | unlike_post o2 i2 =>
    simp only [apply, unlike_post]
    cases hq : db.posts (o2, i2) with
    | none => exact ⟨fun h => h, fun h => h⟩
    | some q =>
      by_cases hk : (o, i) = (o2, i2)
      · simp only [hk, map_set_same]
        exact ⟨fun _ => ⟨_, rfl⟩, fun h => by rw [h] at hq; cases hq⟩
      · simp only [map_set_other _ _ _ _ hk]
        exact ⟨fun h => h, fun h => h⟩
  | repost_post o2 i2 =>
    simp only [apply, repost_post]
    cases hq : db.posts (o2, i2) with
    | none => exact ⟨fun h => h, fun h => h⟩
    | some q =>
      by_cases hk : (o, i) = (o2, i2)
      · simp only [hk, map_set_same]
        exact ⟨fun _ => ⟨_, rfl⟩, fun h => by rw [h] at hq; cases hq⟩
      · simp only [map_set_other _ _ _ _ hk]
        exact ⟨fun h => h, fun h => h⟩

/-- Taking the post `(o, i)` out commutes with every call that neither inserts
nor deletes that post. -/
theorem without_post_apply (db : OptimizedDatabase) (h : Inv db) (o i : Int) (p : Post)
    (hp : db.posts (o, i) = some p) (op : Op) (hs : Op.spares o i op) :
    without_post (apply db op) o i = apply (without_post db o i) op := by
  cases op with
  | insert_user u => rfl
  | insert_post q => exact without_post_insert_post db h o i q hs
  | delete_post o2 i2 => exact without_post_delete_post db h o i o2 i2 p hp hs
  | like_post o2 i2 => exact without_post_like_post db o i o2 i2
  | unlike_post o2 i2 => exact without_post_unlike_post db o i o2 i2
  | repost_post o2 i2 => exact without_post_repost_post db o i o2 i2

theorem without_post_run (o i : Int) (ops : List Op) (hs : ∀ op ∈ ops, Op.spares o i op)
    (db : OptimizedDatabase) (h : Inv db) (hp : ∃ p, db.posts (o, i) = some p) :
    without_post (run db ops) o i = run (without_post db o i) ops ∧
      ∃ p, (run db ops).posts (o, i) = some p := by
  induction ops generalizing db with
  | nil => exact ⟨rfl, hp⟩
  | cons op ops ih =>
    obtain ⟨p, hp1⟩ := hp
    have hop := hs op (List.mem_cons_self _ _)
    obtain ⟨h1, h2⟩ := ih (fun x hx => hs x (List.mem_cons_of_mem _ hx)) (apply db op)
      (Inv_apply db op h) ((posts_apply_of_spares db o i op hop).1 ⟨p, hp1⟩)
    refine ⟨?_, h2⟩
    simp only [run]
    rw [h1, without_post_apply db h o i p hp1 op hop]

theorem filter_multiset_insert_self {α : Type} (comp : α → α → Bool) (keep : α → Bool) (x : α)
    (hx : keep x = false) (s : List α) (hs : ∀ y ∈ s, keep y = true) :
    (multiset_insert comp x s).filter keep = s := by
  induction s with
  | nil => simp [multiset_insert, hx]
  | cons z zs ih =>
    have hz := hs z (List.mem_cons_self _ _)
    have hzs := List.filter_eq_self.mpr (fun y hy => hs y (List.mem_cons_of_mem _ hy))
    simp only [multiset_insert]
    split
    · simp [List.filter_cons, hx, hz, hzs]
    · simp [List.filter_cons, hz, ih (fun y hy => hs y (List.mem_cons_of_mem _ hy))]

/-- Taking a freshly inserted post out again gives back the store as it was. -/
theorem without_post_insert_post_self (db : OptimizedDatabase) (h : Inv db) (q : Post)
    (hq : db.posts (q.OwnerId, q.Id) = none) :
    without_post (insert_post db q) q.OwnerId q.Id = db := by
  rw [insert_post_of_absent db q hq]
  refine db_ext _ _ (fun _ => rfl) ?_ ?_
  · intro x
    simp only [without_post, map_erase, map_set]
    by_cases hx : x = (q.OwnerId, q.Id)
    · simp only [hx, if_true, hq]
    · simp only [hx, if_false]
  · intro x
    simp only [without_post]
    by_cases hx : x = q.OwnerId
    · subst hx
      simp only [if_true, map_set_same, bucket_without]
      have hfresh : ∀ e ∈ (db.owner_posts q.OwnerId).getD [], decide (e.Id ≠ q.Id) = true := by
        intro e he
        obtain ⟨-, p1, hp1, -⟩ := (h.bucket db q.OwnerId).2.2 e he
        simp only [ne_eq, decide_not, Bool.not_eq_true', decide_eq_false_iff_not]
        intro hc
        rw [hc, hq] at hp1
        cases hp1
      rw [filter_multiset_insert_self CompareByDate (fun x => decide (x.Id ≠ q.Id)) q (by simp)
        _ hfresh]
      cases hb : db.owner_posts q.OwnerId with
      | none => rfl
      | some b =>
        have hne := h.nonempty q.OwnerId b hb
        cases b with
        | nil => exact absurd rfl hne
        | cons _ _ => rfl
    · simp only [hx, if_false, map_set_other _ _ _ _ hx]

theorem run_append (db : OptimizedDatabase) (ops1 ops2 : List Op) :
    run db (ops1 ++ ops2) = run (run db ops1) ops2 := by
  induction ops1 generalizing db with
  | nil => rfl
  | cons op ops ih => exact ih (apply db op)

/-- A reachable store that holds the key `(o, i)` arose from a reachable store
without that key by inserting a post under it, followed by calls that neither
insert nor delete that post. -/
theorem Reachable.last_insert {db : OptimizedDatabase} (h : Reachable db) (o i : Int)
    (hp : ∃ p, db.posts (o, i) = some p) :
    ∃ s0 q ops, Reachable s0 ∧ s0.posts (o, i) = none ∧ q.OwnerId = o ∧ q.Id = i ∧
      (∀ op ∈ ops, Op.spares o i op) ∧ db = run (insert_post s0 q) ops := by
  induction h with
  | init =>
    obtain ⟨p, hp⟩ := hp
    simp [empty] at hp
  | @step db op hr ih =>
    cases hdb : db.posts (o, i) with
    | some p0 =>
      obtain ⟨s0, q, ops, h1, h2, h3, h4, h5, h6⟩ := ih ⟨p0, hdb⟩
      by_cases hs : Op.spares o i op
      · refine ⟨s0, q, ops ++ [op], h1, h2, h3, h4, ?_, ?_⟩
        · intro x hx
          rcases List.mem_append.mp hx with hx | hx
          · exact h5 x hx
          · rw [List.mem_singleton] at hx
            rw [hx]
            exact hs
        · rw [run_append, ← h6]
          rfl
      · cases op with
        | insert_post q1 =>
          have hk : (q1.OwnerId, q1.Id) = (o, i) := by
            by_contra hc
            exact hs hc
          have : apply db (.insert_post q1) = db := by
            simp only [apply]
            exact insert_post_of_present db q1 p0 (by rw [hk]; exact hdb)
          rw [this]
          exact ⟨s0, q, ops, h1, h2, h3, h4, h5, h6⟩
        | delete_post o2 i2 =>
          have hk : (o2, i2) = (o, i) := by
            by_contra hc
            exact hs hc
          exfalso
          obtain ⟨p, hp⟩ := hp
          cases hk
          rw [show (apply db (.delete_post o i)).posts (o, i) = none from
            delete_post_posts_same db o i] at hp
          cases hp
        | insert_user u => exact absurd trivial hs
        | like_post o2 i2 => exact absurd trivial hs
        | unlike_post o2 i2 => exact absurd trivial hs
        | repost_post o2 i2 => exact absurd trivial hs
    | none =>
      by_cases hs : Op.spares o i op
      · exfalso
        obtain ⟨p, hp⟩ := hp
        rw [(posts_apply_of_spares db o i op hs).2 hdb] at hp
        cases hp
      · cases op with
        | insert_post q1 =>
          have hk : (q1.OwnerId, q1.Id) = (o, i) := by
            by_contra hc
            exact hs hc
          exact ⟨db, q1, [], hr, hdb, (Prod.mk.inj hk).1, (Prod.mk.inj hk).2,
            fun _ hx => by simp at hx, rfl⟩
        | delete_post o2 i2 =>
          have hk : (o2, i2) = (o, i) := by
            by_contra hc
            exact hs hc
          exfalso
          obtain ⟨p, hp⟩ := hp
          cases hk
          rw [show (apply db (.delete_post o i)).posts (o, i) = none from
            delete_post_posts_same db o i] at hp
          cases hp
        | insert_user u => exact absurd trivial hs
        | like_post o2 i2 => exact absurd trivial hs
        | unlike_post o2 i2 => exact absurd trivial hs
        | repost_post o2 i2 => exact absurd trivial hs

/-! ## Records that stay, counters that come back -/

theorem posts_apply_of_keeps (db : OptimizedDatabase) (o i : Int) (p : Post) (op : Op)
    (hk : Op.keeps o i op) (hp : db.posts (o, i) = some p) :
    (apply db op).posts (o, i) = some p := by
  cases op with
  | insert_user u => exact hp
  | insert_post q =>
    cases hq : db.posts (q.OwnerId, q.Id) with
    | some q1 =>
      simp only [apply, insert_post_of_present db q q1 hq]
      exact hp
    | none =>
      have hne : (o, i) ≠ (q.OwnerId, q.Id) := by
        intro hc
        rw [hc, hq] at hp
        cases hp
      simp only [apply, insert_post_of_absent db q hq, map_set_other _ _ _ _ hne]
      exact hp
  | delete_post o2 i2 =>
    have hne : (o, i) ≠ (o2, i2) := fun hc => hk hc.symm
    cases hq : db.posts (o2, i2) with
    | none =>
      simp only [apply, delete_post_of_absent db o2 i2 hq]
      exact hp
    | some q =>
      simp only [apply, delete_post, hq, map_erase_other _ _ _ hne]
      exact hp
  | like_post o2 i2 =>
    have hne : (o, i) ≠ (o2, i2) := fun hc => hk hc.symm
    simp only [apply, like_post]
    cases hq : db.posts (o2, i2) with
    | none => exact hp
    | some q =>
      simp only [map_set_other _ _ _ _ hne]
      exact hp
  | unlike_post o2 i2 =>
    have hne : (o, i) ≠ (o2, i2) := fun hc => hk hc.symm
    simp only [apply, unlike_post]
    cases hq : db.posts (o2, i2) with
    | none => exact hp
    | some q =>
      simp only [map_set_other _ _ _ _ hne]
      exact hp
  | repost_post o2 i2 =>
    have hne : (o, i) ≠ (o2, i2) := fun hc => hk hc.symm
    simp only [apply, repost_post]
    cases hq : db.posts (o2, i2) with
    | none => exact hp
    | some q =>
      simp only [map_set_other _ _ _ _ hne]
      exact hp

theorem posts_run_of_keeps (o i : Int) (p : Post) (ops : List Op)
    (hk : ∀ op ∈ ops, Op.keeps o i op) (db : OptimizedDatabase) (hp : db.posts (o, i) = some p) :
    (run db ops).posts (o, i) = some p := by
  induction ops generalizing db with
  | nil => exact hp
  | cons op ops ih =>
    exact ih (fun x hx => hk x (List.mem_cons_of_mem _ hx)) (apply db op)
      (posts_apply_of_keeps db o i p op (hk op (List.mem_cons_self _ _)) hp)

theorem wrap_int_of_int (x : Int) (h1 : -2147483648 ≤ x) (h2 : x ≤ 2147483647) :
    wrap_int x = x := by
  unfold wrap_int
  omega

theorem wrap_int_range (x : Int) : -2147483648 ≤ wrap_int x ∧ wrap_int x ≤ 2147483647 := by
  unfold wrap_int
  omega

theorem wrap_int_succ_pred (x : Int) (h1 : -2147483648 ≤ x) (h2 : x ≤ 2147483647) :
    wrap_int (wrap_int (x + 1) - 1) = x := by
  unfold wrap_int
  omega

theorem like_post_of_present (db : OptimizedDatabase) (o i : Int) (p : Post)
    (hp : db.posts (o, i) = some p) :
    like_post db o i =
      { db with posts := map_set db.posts (o, i) { p with Likes := wrap_int (p.Likes + 1) } } := by
  unfold like_post
  rw [hp]

theorem unlike_post_of_present (db : OptimizedDatabase) (o i : Int) (p : Post)
    (hp : db.posts (o, i) = some p) :
    unlike_post db o i =
      { db with posts := map_set db.posts (o, i) { p with Likes := wrap_int (p.Likes - 1) } } := by
  unfold unlike_post
  rw [hp]

theorem repost_post_of_present (db : OptimizedDatabase) (o i : Int) (p : Post)
    (hp : db.posts (o, i) = some p) :
    repost_post db o i =
      { db with
        posts := map_set db.posts (o, i) { p with Reposts := wrap_int (p.Reposts + 1) } } := by
  unfold repost_post
  rw [hp]

/-- One `unlike_post` undoes one `like_post` on a stored post whose like count is
an `int`. -/
theorem unlike_post_like_post (db : OptimizedDatabase) (o i : Int) (p : Post)
    (hp : db.posts (o, i) = some p) (h1 : -2147483648 ≤ p.Likes) (h2 : p.Likes ≤ 2147483647) :
    unlike_post (like_post db o i) o i = db := by
  rw [like_post_of_present db o i p hp]
  rw [unlike_post_of_present _ o i { p with Likes := wrap_int (p.Likes + 1) }
    (map_set_same _ _ _)]
  refine db_ext _ _ (fun _ => rfl) ?_ (fun _ => rfl)
  intro q
  simp only [map_set]
  by_cases hq : q = (o, i)
  · simp only [hq, if_true, hp, wrap_int_succ_pred p.Likes h1 h2]
  · simp only [hq, if_false]

/-- `N` likes followed by `N` unlikes give back the store. -/
theorem run_likes_unlikes (o i : Int) (n : Nat) (db : OptimizedDatabase) (p : Post)
    (hp : db.posts (o, i) = some p) (h1 : -2147483648 ≤ p.Likes) (h2 : p.Likes ≤ 2147483647) :
    run db (List.replicate n (Op.like_post o i) ++ List.replicate n (Op.unlike_post o i)) = db := by
  induction n generalizing db p with
  | zero => rfl
  | succ n ih =>
    have hlist : List.replicate (n + 1) (Op.like_post o i) ++
        List.replicate (n + 1) (Op.unlike_post o i) =
        Op.like_post o i :: ((List.replicate n (Op.like_post o i) ++
          List.replicate n (Op.unlike_post o i)) ++ [Op.unlike_post o i]) := by
      rw [List.replicate_succ, List.replicate_succ' n (Op.unlike_post o i)]
      simp only [List.cons_append, List.append_assoc]
    rw [hlist]
    show run (apply db (Op.like_post o i)) _ = db
    rw [run_append]
    have hp1 : (like_post db o i).posts (o, i) =
        some { p with Likes := wrap_int (p.Likes + 1) } := by
      rw [like_post_of_present db o i p hp]
      exact map_set_same _ _ _
    have hr := wrap_int_range (p.Likes + 1)
    have := ih (like_post db o i) { p with Likes := wrap_int (p.Likes + 1) } hp1 hr.1 hr.2
    simp only [apply]
    rw [this]
    exact unlike_post_like_post db o i p hp h1 h2

/-! ## What the selection loop keeps -/

section selection_spec

variable {α : Type}

theorem pq_push_perm (comp : α → α → Bool) (x : α) (s : List α) :
    (pq_push comp x s).Perm (x :: s) := by
  induction s with
  | nil => simp [pq_push]
  | cons z zs ih =>
    simp only [pq_push]
    split
    · exact (List.Perm.cons z ih).trans (List.Perm.swap x z zs)
    · exact List.Perm.refl _

/-- One iteration of the loop, with the elements given up so far kept on the
side: the heap stays in `top()` order, nothing given up ranks above anything in
the heap, and nothing is given up while the heap has room. -/
theorem select_step_spec (key : α → Int) (comp : α → α → Bool)
    (h1 : ∀ a b, comp a b = true → key b ≤ key a) (h2 : ∀ a b, comp a b = false → key a ≤ key b)
    (k : Int) (heap dropped : List α) (x : α) (heap1 : List α)
    (hs : heap.Pairwise (fun a b => key a ≤ key b))
    (hd : ∀ d ∈ dropped, ∀ h ∈ heap, key d ≤ key h)
    (hroom : size_lt heap.length k = true → dropped = [])
    (hstep : select_step comp (fun x top => decide (key x > key top)) k heap x = .ok heap1) :
    ∃ dropped1, (x :: (heap ++ dropped)).Perm (heap1 ++ dropped1) ∧
      heap1.Pairwise (fun a b => key a ≤ key b) ∧
      (∀ d ∈ dropped1, ∀ h ∈ heap1, key d ≤ key h) ∧
      (size_lt heap1.length k = true → dropped1 = []) := by
  have hpush : ∀ s : List α, s.Pairwise (fun a b => key a ≤ key b) →
      (pq_push comp x s).Pairwise (fun a b => key a ≤ key b) := fun s hs1 =>
    pairwise_pq_push comp (fun a b => key a ≤ key b) (fun _ _ _ h3 h4 => le_trans h3 h4) h1 h2 x s
      hs1
  simp only [select_step] at hstep
  by_cases hlt : size_lt heap.length k = true
  · rw [if_pos hlt] at hstep
    simp only [Except.ok.injEq] at hstep
    subst hstep
    have hnil := hroom hlt
    subst hnil
    refine ⟨[], ?_, hpush heap hs, ?_, fun _ => rfl⟩
    · simpa using (pq_push_perm comp x heap).symm
    · intro d hd1
      simp at hd1
  · rw [if_neg hlt] at hstep
    cases heap with
    | nil => cases hstep
    | cons top rest =>
      rw [List.pairwise_cons] at hs
      simp only at hstep
      by_cases hbetter : key x > key top
      · simp only [hbetter, decide_True, if_true, Except.ok.injEq] at hstep
        subst hstep
        refine ⟨top :: dropped, ?_, hpush rest hs.2, ?_, ?_⟩
        · have hp1 : (pq_push comp x rest ++ top :: dropped).Perm
              ((x :: rest) ++ top :: dropped) :=
            List.Perm.append_right _ (pq_push_perm comp x rest)
          refine List.Perm.symm (hp1.trans ?_)
          simp only [List.cons_append]
          exact List.Perm.cons x List.perm_middle
        · intro d hd1 h hh
          have hx : h = x ∨ h ∈ rest := (mem_pq_push comp x h rest).mp hh
          rcases List.mem_cons.mp hd1 with rfl | hd2
          · rcases hx with rfl | hx
            · omega
            · exact hs.1 h hx
          · have hdt := hd d hd2 top (List.mem_cons_self _ _)
            rcases hx with rfl | hx
            · omega
            · exact hd d hd2 h (List.mem_cons_of_mem _ hx)
        · intro hc
          exfalso
          apply hlt
          simpa [length_pq_push] using hc
      · simp only [hbetter, decide_False, Bool.false_eq_true, if_false, Except.ok.injEq] at hstep
        subst hstep
        refine ⟨x :: dropped, ?_, List.pairwise_cons.mpr hs, ?_, fun hc => absurd hc hlt⟩
        · exact List.perm_middle.symm
        · intro d hd1 h hh
          have hth : key top ≤ key h := by
            rcases List.mem_cons.mp hh with rfl | hh1
            · exact le_refl _
            · exact hs.1 h hh1
          rcases List.mem_cons.mp hd1 with rfl | hd2
          · omega
          · exact hd d hd2 h hh

/-- The loop as a whole: its input splits into the final heap and the elements
given up, none of which ranks above an element of the heap. -/
theorem bounded_select_spec (key : α → Int) (comp : α → α → Bool)
    (h1 : ∀ a b, comp a b = true → key b ≤ key a) (h2 : ∀ a b, comp a b = false → key a ≤ key b)
    (k : Int) (xs heap dropped res : List α)
    (hs : heap.Pairwise (fun a b => key a ≤ key b))
    (hd : ∀ d ∈ dropped, ∀ h ∈ heap, key d ≤ key h)
    (hroom : size_lt heap.length k = true → dropped = [])
    (hres : bounded_select comp (fun x top => decide (key x > key top)) k heap xs = .ok res) :
    ∃ rest, (xs ++ (heap ++ dropped)).Perm (res ++ rest) ∧
      res.Pairwise (fun a b => key a ≤ key b) ∧
      (∀ d ∈ rest, ∀ h ∈ res, key d ≤ key h) := by
  induction xs generalizing heap dropped with
  | nil =>
    simp only [bounded_select, Except.ok.injEq] at hres
    subst hres
    exact ⟨dropped, List.Perm.refl _, hs, hd⟩
  | cons x xs ih =>
    simp only [bounded_select] at hres
    split at hres
    · next heap1 hstep =>
      obtain ⟨dropped1, hp1, hs1, hd1, hroom1⟩ :=
        select_step_spec key comp h1 h2 k heap dropped x heap1 hs hd hroom hstep
      obtain ⟨rest, hp2, hs2, hd2⟩ := ih heap1 dropped1 hs1 hd1 hroom1 hres
      refine ⟨rest, ?_, hs2, hd2⟩
      have hp3 : ((x :: xs) ++ (heap ++ dropped)).Perm (xs ++ x :: (heap ++ dropped)) :=
        List.perm_middle.symm
      exact hp3.trans ((List.Perm.append_left xs hp1).trans hp2)
    · cases hres

/-- The final heap holds as many elements as were offered, up to the bound. -/
theorem bounded_select_length (comp better : α → α → Bool) (k : Int) (xs heap res : List α)
    (hle : (heap.length : Int) ≤ k % 18446744073709551616)
    (hres : bounded_select comp better k heap xs = .ok res) :
    (res.length : Int) = min (k % 18446744073709551616) ((heap.length + xs.length : Nat) : Int) := by
  induction xs generalizing heap with
  | nil =>
    simp only [bounded_select, Except.ok.injEq] at hres
    subst hres
    simp only [List.length_nil, Nat.add_zero]
    omega
  | cons x xs ih =>
    simp only [bounded_select] at hres
    split at hres
    · next heap1 hstep =>
      simp only [select_step] at hstep
      by_cases hlt : size_lt heap.length k = true
      · rw [if_pos hlt] at hstep
        simp only [Except.ok.injEq] at hstep
        subst hstep
        simp only [size_lt, decide_eq_true_eq] at hlt
        have := ih (pq_push comp x heap) (by simp only [length_pq_push]; push_cast; omega) hres
        simp only [length_pq_push] at this
        simp only [List.length_cons]
        rw [this]
        congr 1
        push_cast
        omega
      · rw [if_neg hlt] at hstep
        simp only [size_lt, decide_eq_true_eq, not_lt] at hlt
        cases heap with
        | nil => cases hstep
        | cons top rest =>
          simp only at hstep
          have hlen1 : (heap1.length : Int) = ((top :: rest).length : Int) := by
            split at hstep
            · simp only [Except.ok.injEq] at hstep
              subst hstep
              simp only [length_pq_push, List.length_cons]
            · simp only [Except.ok.injEq] at hstep
              subst hstep
              rfl
          have := ih heap1 (by rw [hlen1]; exact hle) hres
          rw [this]
          have h3 : ((heap1.length + xs.length : Nat) : Int) =
              (heap1.length : Int) + (xs.length : Int) := by push_cast; rfl
          have h4 : (((top :: rest).length + (x :: xs).length : Nat) : Int) =
              ((top :: rest).length : Int) + (xs.length : Int) + 1 := by
            simp only [List.length_cons]
            push_cast
            omega
          rw [h3, h4, hlen1]
          omega
    · cases hres

end selection_spec

/-! ## What the author queries return -/

theorem users_apply (db : OptimizedDatabase) (op : Op) :
    (∃ u, op = .insert_user u) ∨ (apply db op).users = db.users := by
  cases op with
  | insert_user u => exact Or.inl ⟨u, rfl⟩
  | insert_post q =>
    right
    simp only [apply, insert_post]
    split <;> rfl
  | delete_post o i =>
    right
    simp only [apply, delete_post]
    split <;> rfl
  | like_post o i =>
    right
    simp only [apply, like_post]
    split <;> rfl
  | unlike_post o i =>
    right
    simp only [apply, unlike_post]
    split <;> rfl
  | repost_post o i =>
    right
    simp only [apply, repost_post]
    split <;> rfl

/-- In a reachable store every user is registered under its own identifier. -/
theorem users_key_of_Reachable {db : OptimizedDatabase} (h : Reachable db) (q : Int) (u : User)
    (hu : db.users q = some u) : u.Id = q := by
  induction h with
  | init => simp [empty] at hu
  | @step db op _ ih =>
    rcases users_apply db op with ⟨v, rfl⟩ | heq
    · simp only [apply, insert_user, map_set] at hu
      by_cases hq : q = v.Id
      · simp only [hq, if_true, Option.some.injEq] at hu
        rw [← hu, hq]
      · simp only [hq, if_false] at hu
        exact ih hu
    · rw [heq] at hu
      exact ih hu

/-- A drain loop that returns pairs each heap entry with the user registered
under its identifier, in heap order. -/
theorem resolve_ok (db : OptimizedDatabase) (hkey : ∀ q u, db.users q = some u → u.Id = q)
    (heap : List (Int × Int)) (r : List (User × Int)) (h : resolve db heap = .ok r) :
    r.length = heap.length ∧ r.map Prod.snd = heap.map Prod.fst ∧
      r.map (fun x => x.1.Id) = heap.map Prod.snd := by
  induction heap generalizing r with
  | nil =>
    simp only [resolve, Except.ok.injEq] at h
    subst h
    exact ⟨rfl, rfl, rfl⟩
  | cons e rest ih =>
    obtain ⟨total, userId⟩ := e
    simp only [resolve, get_user] at h
    cases hu : db.users userId with
    | none =>
      rw [hu] at h
      cases h
    | some u =>
      rw [hu] at h
      simp only at h
      cases hr : resolve db rest with
      | error f =>
        rw [hr] at h
        cases h
      | ok r1 =>
        rw [hr] at h
        simp only [Except.ok.injEq] at h
        subst h
        obtain ⟨i1, i2, i3⟩ := ih r1 hr
        simp only [List.length_cons, List.map_cons, i1, i2, i3, hkey userId u hu]
        exact ⟨trivial, trivial, trivial⟩

theorem top_k_authors_ok (weight : Post → Int) (db : OptimizedDatabase)
    (k o dateBegin dateEnd : Int) (res : List (User × Int))
    (h : top_k_authors weight db k o dateBegin dateEnd = .ok res) :
    (db.owner_posts o = none ∧ res = []) ∨
    ∃ b r heap resolved, db.owner_posts o = some b ∧ scan b dateBegin dateEnd = .ok r ∧
      bounded_select greater_pair (fun x top => decide (x.1 > top.1)) k []
        ((aggregate weight [] r).map (fun pair => (pair.2, pair.1))) = .ok heap ∧
      resolve db heap = .ok resolved ∧ res = resolved.reverse := by
  unfold top_k_authors at h
  split at h
  · next hb =>
    simp only [Except.ok.injEq] at h
    exact Or.inl ⟨hb, h.symm⟩
  · next b hb =>
    split at h
    · cases h
    · next r hr =>
      split at h
      · cases h
      · next heap hheap =>
        split at h
        · cases h
        · next resolved hres =>
          simp only [Except.ok.injEq] at h
          exact Or.inr ⟨b, r, heap, resolved, hb, hr, hheap, hres, h.symm⟩

theorem greater_pair_true (a b : Int × Int) (h : greater_pair a b = true) : b.1 ≤ a.1 := by
  simp only [greater_pair, Bool.or_eq_true, Bool.and_eq_true, Bool.not_eq_true',
    decide_eq_true_eq, decide_eq_false_iff_not] at h
  omega

theorem greater_pair_false (a b : Int × Int) (h : greater_pair a b = false) : a.1 ≤ b.1 := by
  simp only [greater_pair, Bool.or_eq_false_iff, Bool.and_eq_false_imp, Bool.not_eq_true',
    decide_eq_true_eq, decide_eq_false_iff_not] at h
  omega

/-- In a store whose users are registered under their own identifiers, a
successful author query with `1 ≤ k` returns at most `k` pairs, in
non-increasing order of the total, for pairwise different users. -/
theorem top_k_authors_result (weight : Post → Int) (db : OptimizedDatabase)
    (hkey : ∀ q u, db.users q = some u → u.Id = q) (k o dateBegin dateEnd : Int)
    (hk : 1 ≤ k) (hk2 : k ≤ 2147483647) (res : List (User × Int))
    (h : top_k_authors weight db k o dateBegin dateEnd = .ok res) :
    (res.length : Int) ≤ k ∧ res.Pairwise (fun a b => a.2 ≥ b.2) ∧
      (res.map (fun a => a.1.Id)).Nodup := by
  rcases top_k_authors_ok weight db k o dateBegin dateEnd res h with
    ⟨-, rfl⟩ | ⟨b, r, heap, resolved, hb, hr, hheap, hres, rfl⟩
  · refine ⟨?_, List.Pairwise.nil, List.nodup_nil⟩
    simp only [List.length_nil]
    omega
  · obtain ⟨r1, r2, r3⟩ := resolve_ok db hkey heap resolved hres
    have hlen := bounded_select_length greater_pair _ k _ [] heap (by
      simp only [List.length_nil]
      omega) hheap
    obtain ⟨rest, hperm, hsorted, -⟩ := bounded_select_spec (fun pr : Int × Int => pr.1)
      greater_pair greater_pair_true greater_pair_false k _ [] [] heap List.Pairwise.nil
      (fun _ hd => by simp at hd) (fun _ => rfl) hheap
    refine ⟨?_, ?_, ?_⟩
    · rw [List.length_reverse, r1]
      have hkm : k % 18446744073709551616 = k := by omega
      rw [hkm] at hlen
      omega
    · rw [List.pairwise_reverse]
      have h1 : (heap.map Prod.fst).Pairwise (fun a b => a ≤ b) := List.pairwise_map.mpr hsorted
      rw [← r2] at h1
      exact List.pairwise_map.mp h1
    · rw [List.map_reverse, List.nodup_reverse, r3]
      have hkeys := aggregate_keys_nodup weight r [] (by simp)
      have hinput : (((aggregate weight [] r).map (fun pair => (pair.2, pair.1))).map
          Prod.snd).Nodup := by
        simpa [List.map_map, Function.comp_def] using hkeys
      simp only [List.append_nil] at hperm
      have h2 : ((heap ++ rest).map Prod.snd).Nodup := (hperm.map Prod.snd).nodup_iff.mp hinput
      rw [List.map_append] at h2
      exact h2.of_append_left

/-! ## The queries in terms of the scanned entries -/

/-- In a strictly ordered bucket and for `dateBegin ≤ dateEnd` the scan returns
the entries lying between the two probes, in bucket order. -/
theorem scan_of_le (b : List Post) (hs : b.Pairwise (fun x y => CompareByDate x y = true))
    (dateBegin dateEnd : Int) (hd : dateBegin ≤ dateEnd) :
    scan b dateBegin dateEnd = .ok (b.filter (in_scan dateBegin dateEnd)) := by
  obtain ⟨r, hr⟩ := scan_returns b dateBegin dateEnd hd
  rw [hr, scan_eq_filter b hs dateBegin dateEnd r hr]

theorem top_k_post_by_likes_of_scan (db : OptimizedDatabase) (k o dateBegin dateEnd : Int)
    (b r : List Post) (hb : db.owner_posts o = some b) (hr : scan b dateBegin dateEnd = .ok r) :
    top_k_post_by_likes db k o dateBegin dateEnd =
      Except.map List.reverse
        (bounded_select CompareByLikes (fun x top => decide (x.Likes > top.Likes)) k [] r) := by
  unfold top_k_post_by_likes
  simp only [hb, hr]
  cases bounded_select CompareByLikes (fun x top => decide (x.Likes > top.Likes)) k [] r <;> rfl

theorem top_k_post_by_reposts_of_scan (db : OptimizedDatabase) (k o dateBegin dateEnd : Int)
    (b r : List Post) (hb : db.owner_posts o = some b) (hr : scan b dateBegin dateEnd = .ok r) :
    top_k_post_by_reposts db k o dateBegin dateEnd =
      Except.map List.reverse
        (bounded_select CompareByReposts (fun x top => decide (x.Reposts > top.Reposts)) k [] r) := by
  unfold top_k_post_by_reposts
  simp only [hb, hr]
  cases bounded_select CompareByReposts (fun x top => decide (x.Reposts > top.Reposts)) k [] r <;>
    rfl

theorem top_k_authors_of_scan (weight : Post → Int) (db : OptimizedDatabase)
    (k o dateBegin dateEnd : Int) (b r : List Post) (hb : db.owner_posts o = some b)
    (hr : scan b dateBegin dateEnd = .ok r) :
    top_k_authors weight db k o dateBegin dateEnd =
      match bounded_select greater_pair (fun x top => decide (x.1 > top.1)) k []
          ((aggregate weight [] r).map (fun pair => (pair.2, pair.1))) with
      | .error f => .error f
      | .ok heap => Except.map List.reverse (resolve db heap) := by
  unfold top_k_authors
  simp only [hb, hr]
  cases bounded_select greater_pair (fun x top => decide (x.1 > top.1)) k []
      ((aggregate weight [] r).map (fun pair => (pair.2, pair.1))) with
  | error f => rfl
  | ok heap =>
    simp only
    cases resolve db heap <;> rfl

/-- In a reachable store, for `dateBegin ≤ dateEnd`, an owner without posts or
without a post dated in `[dateBegin, dateEnd]` gets the empty sequence from all
four queries, whatever `k` is. -/
theorem top_k_empty_of_no_post_in_window (db : OptimizedDatabase) (h : Reachable db)
    (k o dateBegin dateEnd : Int) (hd : dateBegin ≤ dateEnd)
    (hnone : ∀ i p, db.posts (o, i) = some p → ¬ (dateBegin ≤ p.Date ∧ p.Date ≤ dateEnd)) :
    top_k_post_by_likes db k o dateBegin dateEnd = .ok [] ∧
    top_k_post_by_reposts db k o dateBegin dateEnd = .ok [] ∧
    top_k_authors_by_likes db k o dateBegin dateEnd = .ok [] ∧
    top_k_authors_by_reports db k o dateBegin dateEnd = .ok [] := by
  have hinv := Inv_of_Reachable h
  cases hb : db.owner_posts o with
  | none =>
    simp only [top_k_post_by_likes, top_k_post_by_reposts, top_k_authors_by_likes,
      top_k_authors_by_reports, top_k_authors, hb]
    exact ⟨trivial, trivial, trivial, trivial⟩
  | some b =>
    have hfilter : b.filter (in_scan dateBegin dateEnd) = [] := by
      rw [List.filter_eq_nil_iff]
      intro e he hin
      obtain ⟨-, p, hp, hs⟩ := hinv.stored o b e hb he
      rw [in_scan_iff] at hin
      apply hnone e.Id p hp
      rw [← hs.2.2.2]
      omega
    have hscan := scan_of_le b (hinv.sorted o b hb) dateBegin dateEnd hd
    rw [hfilter] at hscan
    refine ⟨?_, ?_, ?_, ?_⟩
    · rw [top_k_post_by_likes_of_scan db k o dateBegin dateEnd b [] hb hscan]
      rfl
    · rw [top_k_post_by_reposts_of_scan db k o dateBegin dateEnd b [] hb hscan]
      rfl
    · unfold top_k_authors_by_likes
      rw [top_k_authors_of_scan _ db k o dateBegin dateEnd b [] hb hscan]
      rfl
    · unfold top_k_authors_by_reports
      rw [top_k_authors_of_scan _ db k o dateBegin dateEnd b [] hb hscan]
      rfl

/-! ## Which authors the selection keeps -/

theorem lookup_cons_of_ne (f q c : Int) (rest : List (Int × Int)) (h : f ≠ q) :
    List.lookup f ((q, c) :: rest) = List.lookup f rest := by
  have hb : (f == q) = false := by simpa using h
  simp [List.lookup_cons, hb]

theorem lookup_cons_same (q c : Int) (rest : List (Int × Int)) :
    List.lookup q ((q, c) :: rest) = some c := by
  simp [List.lookup_cons]

theorem lookup_count_add (key v : Int) (count : List (Int × Int)) (f : Int) :
    (count_add key v count).lookup f =
      if f = key then some (wrap_int ((count.lookup key).getD 0 + v)) else count.lookup f := by
  induction count with
  | nil =>
    by_cases hf : f = key
    · subst hf
      simp [count_add, lookup_cons_same]
    · simp [count_add, lookup_cons_of_ne _ _ _ _ hf, hf]
  | cons e rest ih =>
    obtain ⟨q, c⟩ := e
    by_cases hq : q = key
    · subst hq
      by_cases hf : f = q
      · subst hf
        simp [count_add, lookup_cons_same]
      · simp [count_add, lookup_cons_of_ne _ _ _ _ hf, hf]
    · have hq1 : key ≠ q := fun hc => hq hc.symm
      by_cases hf : f = key
      · subst hf
        simp [count_add, hq, lookup_cons_of_ne _ _ _ _ hq1, ih]
      · by_cases hfq : f = q
        · subst hfq
          simp [count_add, hq, hf, lookup_cons_same]
        · simp [count_add, hq, hf, lookup_cons_of_ne _ _ _ _ hfq, ih]

theorem wrap_int_add_wrap_int (a b : Int) : wrap_int (wrap_int a + b) = wrap_int (a + b) := by
  unfold wrap_int
  omega

/-- The total kept for an author once the aggregation loop has run. -/
theorem lookup_aggregate (weight : Post → Int) (r : List Post) (count : List (Int × Int))
    (f : Int) :
    (aggregate weight count r).lookup f =
      if f ∈ r.map Post.FromId then
        some (wrap_int ((count.lookup f).getD 0 +
          ((r.filter (fun q => decide (q.FromId = f))).map weight).sum))
      else count.lookup f := by
  induction r generalizing count with
  | nil => simp [aggregate]
  | cons p ps ih =>
    simp only [aggregate, ih, lookup_count_add]
    by_cases hp : f = p.FromId
    · subst hp
      by_cases hps : p.FromId ∈ ps.map Post.FromId
      · simp [hps, List.filter_cons, wrap_int_add_wrap_int, add_assoc]
      · have hnil : ps.filter (fun q => decide (q.FromId = p.FromId)) = [] := by
          rw [List.filter_eq_nil_iff]
          intro a ha hc
          simp only [decide_eq_true_eq] at hc
          exact hps (List.mem_map.mpr ⟨a, ha, hc⟩)
        simp [hps, List.filter_cons, hnil]
    · have hp1 : ¬ p.FromId = f := fun hc => hp hc.symm
      simp [hp, hp1, List.filter_cons]

theorem lookup_of_mem_of_nodup (l : List (Int × Int)) (hnd : (l.map Prod.fst).Nodup)
    (f t : Int) (h : (f, t) ∈ l) : l.lookup f = some t := by
  induction l with
  | nil => simp at h
  | cons e rest ih =>
    obtain ⟨q, c⟩ := e
    simp only [List.map_cons, List.nodup_cons] at hnd
    rcases List.mem_cons.mp h with heq | hmem
    · cases heq
      exact lookup_cons_same _ _ _
    · have hne : f ≠ q := by
        rintro rfl
        exact hnd.1 (List.mem_map.mpr ⟨(f, t), hmem, rfl⟩)
      rw [lookup_cons_of_ne _ _ _ _ hne]
      exact ih hnd.2 hmem

/-- Every entry of the aggregate holds the 32-bit sum of the weights of the
scanned posts of its author. -/
theorem aggregate_entry_total (weight : Post → Int) (r : List Post) (f t : Int)
    (h : (f, t) ∈ aggregate weight [] r) :
    t = wrap_int (((r.filter (fun q => decide (q.FromId = f))).map weight).sum) := by
  have hl := lookup_of_mem_of_nodup _ (aggregate_keys_nodup weight r [] (by simp)) f t h
  rw [lookup_aggregate] at hl
  split at hl
  · simp only [List.lookup_nil, Option.getD_none, zero_add, Option.some.injEq] at hl
    exact hl.symm
  · simp at hl

/-- The drain loop returns when every user in the heap is registered. -/
theorem resolve_registered (db : OptimizedDatabase) (heap : List (Int × Int))
    (h : ∀ pair ∈ heap, ∃ u, db.users pair.2 = some u) : ∃ r, resolve db heap = .ok r := by
  induction heap with
  | nil => exact ⟨[], rfl⟩
  | cons e rest ih =>
    obtain ⟨total, userId⟩ := e
    obtain ⟨u, hu⟩ := h (total, userId) (List.mem_cons_self _ _)
    obtain ⟨r, hr⟩ := ih (fun pair hp => h pair (List.mem_cons_of_mem _ hp))
    exact ⟨(u, total) :: r, by simp [resolve, get_user, hu, hr]⟩

/-- The drain loop throws exactly when the heap holds an unregistered user. -/
theorem resolve_error_iff (db : OptimizedDatabase) (heap : List (Int × Int)) :
    resolve db heap = .error .UserNotFound ↔ ∃ pair ∈ heap, db.users pair.2 = none := by
  constructor
  · intro herr
    by_contra hc
    have hall : ∀ pair ∈ heap, ∃ u, db.users pair.2 = some u := by
      intro pair hp
      cases hu : db.users pair.2 with
      | none => exact absurd ⟨pair, hp, hu⟩ hc
      | some u => exact ⟨u, rfl⟩
    obtain ⟨r, hr⟩ := resolve_registered db heap hall
    rw [hr] at herr
    cases herr
  · exact resolve_unregistered db heap

/-- An element survives the selection when fewer than `k` other elements rank at
least as high. -/
theorem bounded_select_keeps_top {α : Type} [DecidableEq α] (key : α → Int)
    (comp : α → α → Bool)
    (h1 : ∀ a b, comp a b = true → key b ≤ key a) (h2 : ∀ a b, comp a b = false → key a ≤ key b)
    (k : Int) (xs res : List α) (hk : 0 ≤ k % 18446744073709551616)
    (hres : bounded_select comp (fun x top => decide (key x > key top)) k [] xs = .ok res)
    (x : α) (hx : x ∈ xs)
    (hrank : ((xs.filter (fun y => decide (y ≠ x ∧ key x ≤ key y))).length : Int)
      < k % 18446744073709551616) : x ∈ res := by
  obtain ⟨rest, hperm, -, hopt⟩ := bounded_select_spec key comp h1 h2 k xs [] [] res
    List.Pairwise.nil (fun _ hd => by simp at hd) (fun _ => rfl) hres
  have hlen := bounded_select_length comp _ k xs [] res (by simpa using hk) hres
  simp only [List.append_nil] at hperm
  by_contra hnot
  have hrest : x ∈ rest := by
    rcases List.mem_append.mp (hperm.mem_iff.mp hx) with h | h
    · exact absurd h hnot
    · exact h
  have hlen2 : xs.length = res.length + rest.length := by
    rw [hperm.length_eq, List.length_append]
  have hpos : 0 < rest.length := List.length_pos_of_mem hrest
  have hsub : res.Subperm xs := (List.sublist_append_left res rest).subperm.trans hperm.symm.subperm
  have hfilter : res.filter (fun y => decide (y ≠ x ∧ key x ≤ key y)) = res := by
    rw [List.filter_eq_self]
    intro y hy
    simp only [decide_eq_true_eq]
    exact ⟨fun hc => hnot (hc ▸ hy), hopt x hrest y hy⟩
  have hle := (List.Subperm.filter (fun y => decide (y ≠ x ∧ key x ≤ key y)) hsub).length_le
  rw [hfilter] at hle
  simp only [List.length_nil, Nat.zero_add] at hlen
  omega

/-- For an entry `e` of the bucket that the query scans: its author has an entry
in the aggregate, holding the 32-bit sum of the weights of that author's scanned
posts; the selection returns; the query throws `"User not found"` exactly when
the final heap holds an unregistered user; and the author of `e` is in the
final heap when fewer than `k` other authors have a total at least as large. -/
theorem top_k_authors_survivor (weight : Post → Int) (db : OptimizedDatabase)
    (k o dateBegin dateEnd : Int) (hk : 1 ≤ k) (hk2 : k ≤ 2147483647) (hd : dateBegin ≤ dateEnd)
    (b : List Post) (hb : db.owner_posts o = some b)
    (hs : b.Pairwise (fun x y => CompareByDate x y = true))
    (e : Post) (he : e ∈ b) (hin : in_scan dateBegin dateEnd e = true) :
    ∃ c heap,
      (e.FromId, c) ∈ aggregate weight [] (b.filter (in_scan dateBegin dateEnd)) ∧
      c = wrap_int ((((b.filter (in_scan dateBegin dateEnd)).filter
        (fun q => decide (q.FromId = e.FromId))).map weight).sum) ∧
      bounded_select greater_pair (fun x top => decide (x.1 > top.1)) k []
        ((aggregate weight [] (b.filter (in_scan dateBegin dateEnd))).map
          (fun pair => (pair.2, pair.1))) = .ok heap ∧
      (top_k_authors weight db k o dateBegin dateEnd = .error .UserNotFound ↔
        ∃ pair ∈ heap, db.users pair.2 = none) ∧
      ((((aggregate weight [] (b.filter (in_scan dateBegin dateEnd))).filter
          (fun pr => decide (pr.1 ≠ e.FromId ∧ c ≤ pr.2))).length : Int) < k →
        (c, e.FromId) ∈ heap) := by
  have hscan := scan_of_le b hs dateBegin dateEnd hd
  have her : e ∈ b.filter (in_scan dateBegin dateEnd) := List.mem_filter.mpr ⟨he, hin⟩
  have hnd := aggregate_keys_nodup weight (b.filter (in_scan dateBegin dateEnd)) [] (by simp)
  have hkey : e.FromId ∈ (aggregate weight [] (b.filter (in_scan dateBegin dateEnd))).map
      Prod.fst :=
    (aggregate_keys_mem weight _ [] e.FromId).mpr (Or.inr (List.mem_map_of_mem _ her))
  obtain ⟨⟨f, c⟩, hfc, hf⟩ := List.mem_map.mp hkey
  simp only at hf
  subst hf
  have hk0 : size_lt 0 k = true := size_lt_zero_of_int k (by omega) (by omega) hk2
  obtain ⟨heap, hheap⟩ := bounded_select_returns greater_pair
    (fun x top => decide (x.1 > top.1)) k hk0
    ((aggregate weight [] (b.filter (in_scan dateBegin dateEnd))).map
      (fun pair => (pair.2, pair.1))) []
  have hkm : k % 18446744073709551616 = k := by omega
  refine ⟨c, heap, hfc, aggregate_entry_total weight _ _ c hfc, hheap, ?_, ?_⟩
  · rw [top_k_authors_of_scan weight db k o dateBegin dateEnd b _ hb hscan, hheap]
    simp only
    rw [← resolve_error_iff]
    cases resolve db heap with
    | error f =>
      show (Except.error f : Except Fault (List (User × Int))) = _ ↔ _
      exact Iff.rfl
    | ok r =>
      constructor
      · intro hc
        cases hc
      · intro hc
        cases hc
  · intro hrank
    refine bounded_select_keeps_top (fun pr : Int × Int => pr.1) greater_pair greater_pair_true
      greater_pair_false k _ heap (by omega) hheap (c, e.FromId)
      (List.mem_map.mpr ⟨(e.FromId, c), hfc, rfl⟩) ?_
    rw [hkm]
    refine lt_of_le_of_lt ?_ hrank
    rw [← List.countP_eq_length_filter, ← List.countP_eq_length_filter, List.countP_map]
    norm_cast
    apply List.countP_mono_left
    intro pr hpr hP
    simp only [Function.comp_apply, ne_eq, decide_eq_true_eq] at hP ⊢
    refine ⟨?_, hP.2⟩
    intro hc
    apply hP.1
    have h1 := lookup_of_mem_of_nodup _ hnd pr.1 pr.2 hpr
    have h2 := lookup_of_mem_of_nodup _ hnd e.FromId c hfc
    rw [hc, h2] at h1
    simp only [Option.some.injEq] at h1
    rw [← hc, h1]

/-! ## The claims -/

/-- C1 (the code departs from the claim): with posts `{Id 1, Date 5, Likes 1}`
and `{Id 2, Date 10, Likes 9}` stored for owner 1 by two `insert_post` calls,
both dates lie in the inclusive window `[0, 10]`, yet
`top_k_post_by_likes(1, 1, 0, 10)` returns only post 1: the post dated
`dateEnd` is not scanned because its identifier is above the probe's `Id = 0`,
although it has the larger like count. -/
theorem C1_post_dated_dateEnd_missed :
    get_post (insert_post (insert_post empty ⟨1, 1, 7, 5, 1, 0⟩) ⟨2, 1, 7, 10, 9, 0⟩) 1 2
      = .ok ⟨2, 1, 7, 10, 9, 0⟩ ∧
    top_k_post_by_likes (insert_post (insert_post empty ⟨1, 1, 7, 5, 1, 0⟩) ⟨2, 1, 7, 10, 9, 0⟩)
      1 1 0 10 = .ok [⟨1, 1, 7, 5, 1, 0⟩] ∧
    top_k_post_by_likes (insert_post (insert_post empty ⟨1, 1, 7, 5, 1, 0⟩) ⟨2, 1, 7, 10, 9, 0⟩)
      2 1 0 10 = .ok [⟨1, 1, 7, 5, 1, 0⟩] := by
  decide

/-- C2 (the code departs from the claim): after `insert_post` of a post with 3
likes and one `like_post` on it, `get_post` reports 4 likes while both
`top_k_post_by_likes` and `top_k_post_by_reposts` return the index copy with 3
likes. -/
theorem C2_top_k_returns_stale_counts :
    get_post (like_post (insert_post empty ⟨10, 1, 7, 5, 3, 0⟩) 1 10) 1 10
      = .ok ⟨10, 1, 7, 5, 4, 0⟩ ∧
    top_k_post_by_likes (like_post (insert_post empty ⟨10, 1, 7, 5, 3, 0⟩) 1 10) 1 1 0 10
      = .ok [⟨10, 1, 7, 5, 3, 0⟩] ∧
    top_k_post_by_reposts (like_post (insert_post empty ⟨10, 1, 7, 5, 3, 0⟩) 1 10) 1 1 0 10
      = .ok [⟨10, 1, 7, 5, 3, 0⟩] := by
  decide

/-- C3: in every store reachable by public operations, a key `(o, i)` is in the
Post Table exactly when the bucket of `o` holds exactly one entry with
identifier `i`; that entry has the date and owner of the table record; every
index entry has a table record under its owner and identifier; and no bucket is
empty. -/
theorem C3_store_synchronised (db : OptimizedDatabase) (h : Reachable db) :
    (∀ o i, (∃ p, db.posts (o, i) = some p) ↔
      ∃ b, db.owner_posts o = some b ∧ (b.filter (fun e => decide (e.Id = i))).length = 1) ∧
    (∀ o i p b e, db.posts (o, i) = some p → db.owner_posts o = some b → e ∈ b → e.Id = i →
      e.Date = p.Date ∧ e.OwnerId = p.OwnerId) ∧
    (∀ o b e, db.owner_posts o = some b → e ∈ b →
      e.OwnerId = o ∧ ∃ p, db.posts (e.OwnerId, e.Id) = some p) ∧
    (∀ o b, db.owner_posts o = some b → b ≠ []) := by
  have hinv := Inv_of_Reachable h
  refine ⟨?_, ?_, ?_, hinv.nonempty⟩
  · intro o i
    constructor
    · rintro ⟨p, hp⟩
      obtain ⟨b, hb, e, he, hs⟩ := hinv.indexed o i p hp
      refine ⟨b, hb, ?_⟩
      have := length_filter_id_eq_one b (hinv.distinct o b hb) e he
      rw [hs.1, (hinv.key_eq o i p hp).2] at this
      exact this
    · rintro ⟨b, hb, hlen⟩
      cases hf : b.filter (fun e => decide (e.Id = i)) with
      | nil => rw [hf] at hlen; simp at hlen
      | cons e es =>
        have he : e ∈ b.filter (fun e => decide (e.Id = i)) := by
          rw [hf]
          exact List.mem_cons_self _ _
        obtain ⟨he1, he2⟩ := List.mem_filter.mp he
        obtain ⟨-, p, hp, -⟩ := hinv.stored o b e hb he1
        simp only [decide_eq_true_eq] at he2
        rw [he2] at hp
        exact ⟨p, hp⟩
  · intro o i p b e hp hb he hid
    obtain ⟨h1, q, hq, hs⟩ := hinv.stored o b e hb he
    rw [hid, hp] at hq
    cases hq
    exact ⟨hs.2.2.2, hs.2.1⟩
  · intro o b e hb he
    obtain ⟨h1, q, hq, -⟩ := hinv.stored o b e hb he
    exact ⟨h1, q, by rw [h1]; exact hq⟩

/-- C3 at the store holding one post. -/
theorem C3_store_synchronised_witness :
    Reachable (insert_post empty ⟨10, 1, 7, 5, 3, 0⟩) ∧
    ((∃ p, (insert_post empty ⟨10, 1, 7, 5, 3, 0⟩).posts (1, 10) = some p) ↔
      ∃ b, (insert_post empty ⟨10, 1, 7, 5, 3, 0⟩).owner_posts 1 = some b ∧
        (b.filter (fun e => decide (e.Id = 10))).length = 1) :=
  ⟨Reachable.step (.insert_post ⟨10, 1, 7, 5, 3, 0⟩) Reachable.init,
    (C3_store_synchronised _
      (Reachable.step (.insert_post ⟨10, 1, 7, 5, 3, 0⟩) Reachable.init)).1 1 10⟩

/-- C4: in every reachable store that holds the key `(o, i)` (whatever
`like_post`/`unlike_post`/`repost_post` calls it has received),
`delete_post(o, i)` returns normally and leaves a store in which `get_post(o, i)`
fails with `NotFound`, the bucket of `o` has no entry with identifier `i`, the
users, every other Post Table record and every other bucket are unchanged, and
the bucket of `o` is the old one with that entry filtered out (dropped when
empty).  Consequently the store is the one the same calls produce when the post
is never inserted: whenever the store arose from a reachable store `s0` without
the key by inserting a post under it and then running calls `ops` that neither
insert nor delete that post, the store after the deletion equals `s0` after
`ops`, so all four top-k queries return the same on both; and every reachable
store holding the key did arise in that way. -/
theorem C4_delete_post_removes (db : OptimizedDatabase) (h : Reachable db) (o i : Int)
    (hp : ∃ p, db.posts (o, i) = some p) :
    (delete_post db o i).1 = .ok () ∧
    get_post (delete_post db o i).2 o i = .error .PostNotFound ∧
    (∀ b, (delete_post db o i).2.owner_posts o = some b → ∀ e ∈ b, e.Id ≠ i) ∧
    (delete_post db o i).2.users = db.users ∧
    (∀ key, key ≠ (o, i) → (delete_post db o i).2.posts key = db.posts key) ∧
    (∀ q, q ≠ o → (delete_post db o i).2.owner_posts q = db.owner_posts q) ∧
    (∃ b, db.owner_posts o = some b ∧
      (delete_post db o i).2.owner_posts o =
        if (b.filter (fun e => decide (e.Id ≠ i))).isEmpty then none
        else some (b.filter (fun e => decide (e.Id ≠ i)))) ∧
    (∀ s0 q ops, Reachable s0 → s0.posts (o, i) = none → q.OwnerId = o → q.Id = i →
      (∀ op ∈ ops, Op.spares o i op) → db = run (insert_post s0 q) ops →
      (delete_post db o i).2 = run s0 ops ∧
      ∀ k o1 dateBegin dateEnd,
        top_k_post_by_likes (delete_post db o i).2 k o1 dateBegin dateEnd
          = top_k_post_by_likes (run s0 ops) k o1 dateBegin dateEnd ∧
        top_k_post_by_reposts (delete_post db o i).2 k o1 dateBegin dateEnd
          = top_k_post_by_reposts (run s0 ops) k o1 dateBegin dateEnd ∧
        top_k_authors_by_likes (delete_post db o i).2 k o1 dateBegin dateEnd
          = top_k_authors_by_likes (run s0 ops) k o1 dateBegin dateEnd ∧
        top_k_authors_by_reports (delete_post db o i).2 k o1 dateBegin dateEnd
          = top_k_authors_by_reports (run s0 ops) k o1 dateBegin dateEnd) ∧
    (∃ s0 q ops, Reachable s0 ∧ s0.posts (o, i) = none ∧ q.OwnerId = o ∧ q.Id = i ∧
      (∀ op ∈ ops, Op.spares o i op) ∧ db = run (insert_post s0 q) ops) := by
  have hinv := Inv_of_Reachable h
  obtain ⟨p, hp1⟩ := hp
  have heq := delete_post_eq_without_post db hinv o i p hp1
  obtain ⟨b, hb⟩ : ∃ b, db.owner_posts o = some b := by
    obtain ⟨b, hb, -⟩ := hinv.indexed o i p hp1
    exact ⟨b, hb⟩
  rw [heq]
  refine ⟨rfl, ?_, ?_, rfl, ?_, ?_, ⟨b, hb, ?_⟩, ?_, Reachable.last_insert h o i ⟨p, hp1⟩⟩
  · simp only [get_post, without_post_posts_same]
  · intro b1 hb1 e he
    simp only [without_post, if_true, hb, bucket_without] at hb1
    split at hb1
    · cases hb1
    · simp only [Option.some.injEq] at hb1
      subst hb1
      simpa using (List.mem_filter.mp he).2
  · intro key hkey
    exact without_post_posts_other db o i key hkey
  · intro q hq
    simp only [without_post, hq, if_false]
  · simp only [without_post, if_true, hb, bucket_without]
  · intro s0 q ops hs0 habs hqo hqi hops hdb
    subst hqo
    subst hqi
    have hinv0 := Inv_of_Reachable hs0
    have hpres : ∃ p1, (insert_post s0 q).posts (q.OwnerId, q.Id) = some p1 := by
      rw [insert_post_of_absent s0 q habs]
      exact ⟨q, map_set_same _ _ _⟩
    have hrun := (without_post_run q.OwnerId q.Id ops hops (insert_post s0 q)
      (Inv_insert_post s0 q hinv0) hpres).1
    rw [without_post_insert_post_self s0 hinv0 q habs, ← hdb] at hrun
    simp only [hrun]
    exact ⟨trivial, fun _ _ _ _ => ⟨trivial, trivial, trivial, trivial⟩⟩

/-- C4 at the store holding one post that has been liked once. -/
theorem C4_delete_post_removes_witness :
    Reachable (like_post (insert_post empty ⟨10, 1, 7, 5, 3, 0⟩) 1 10) ∧
    (∃ p, (like_post (insert_post empty ⟨10, 1, 7, 5, 3, 0⟩) 1 10).posts (1, 10) = some p) ∧
    (delete_post (like_post (insert_post empty ⟨10, 1, 7, 5, 3, 0⟩) 1 10) 1 10).1 = .ok () ∧
    get_post (delete_post (like_post (insert_post empty ⟨10, 1, 7, 5, 3, 0⟩) 1 10) 1 10).2 1 10
      = .error .PostNotFound :=
  ⟨Reachable.step (.like_post 1 10)
      (Reachable.step (.insert_post ⟨10, 1, 7, 5, 3, 0⟩) Reachable.init),
    ⟨⟨10, 1, 7, 5, 4, 0⟩, by decide⟩,
    (C4_delete_post_removes _
      (Reachable.step (.like_post 1 10)
        (Reachable.step (.insert_post ⟨10, 1, 7, 5, 3, 0⟩) Reachable.init)) 1 10
      ⟨⟨10, 1, 7, 5, 4, 0⟩, by decide⟩).1,
    (C4_delete_post_removes _
      (Reachable.step (.like_post 1 10)
        (Reachable.step (.insert_post ⟨10, 1, 7, 5, 3, 0⟩) Reachable.init)) 1 10
      ⟨⟨10, 1, 7, 5, 4, 0⟩, by decide⟩).2.1⟩

/-- C5: `delete_post` either returns normally or fails with `NotFound`; it fails
exactly when the key is absent from the Post Table; a failing call leaves the
whole store as it was; and a second `delete_post` on the same key right after a
successful one fails with `NotFound`. -/
theorem C5_delete_post_not_found (db : OptimizedDatabase) (o i : Int) :
    ((delete_post db o i).1 = .ok () ∨ (delete_post db o i).1 = .error .PostNotFound) ∧
    ((delete_post db o i).1 = .error .PostNotFound ↔ db.posts (o, i) = none) ∧
    ((delete_post db o i).1 = .error .PostNotFound → (delete_post db o i).2 = db) ∧
    ((delete_post db o i).1 = .ok () →
      (delete_post (delete_post db o i).2 o i).1 = .error .PostNotFound) := by
  cases hp : db.posts (o, i) with
  | none => simp [delete_post_of_absent db o i hp]
  | some p =>
    have h1 : (delete_post db o i).1 = .ok () := by
      unfold delete_post
      simp only [hp]
    have h2 : (delete_post db o i).2.posts (o, i) = none := by
      unfold delete_post
      simp only [hp, map_erase_same]
    refine ⟨Or.inl h1, ?_, ?_, ?_⟩
    · simp [h1]
    · simp [h1]
    · intro _
      rw [delete_post_of_absent _ o i h2]

/-- C6 as stated fails: user 1 is registered, user 2 is not; owner 1 has a post
by user 1 with 10 likes and a post by user 2 with 1 like, both dated inside
`[0, 10]`.  `top_k_authors_by_likes(1, 1, 0, 10)` returns `[(user 1, 10)]`
instead of failing: only the authors that survive the selection are resolved. -/
theorem C6_unselected_author_not_resolved :
    get_post (insert_post (insert_post (insert_user empty ⟨1, 0⟩) ⟨1, 1, 1, 5, 10, 0⟩)
      ⟨2, 1, 2, 6, 1, 0⟩) 1 2 = .ok ⟨2, 1, 2, 6, 1, 0⟩ ∧
    get_user (insert_post (insert_post (insert_user empty ⟨1, 0⟩) ⟨1, 1, 1, 5, 10, 0⟩)
      ⟨2, 1, 2, 6, 1, 0⟩) 2 = .error .UserNotFound ∧
    top_k_authors_by_likes (insert_post (insert_post (insert_user empty ⟨1, 0⟩)
      ⟨1, 1, 1, 5, 10, 0⟩) ⟨2, 1, 2, 6, 1, 0⟩) 1 1 0 10 = .ok [(⟨1, 0⟩, 10)] := by
  decide

/-- C6 (amended): in every reachable store, for every `int` `k ≥ 1`, every
`ownerId` and window: if some stored post of `ownerId` with
`dateBegin < Date < dateEnd` has a `FromId` that is not a key of the User
Registry, then that author has a total `c` in the aggregate (the 32-bit sum of
`Likes` over the author's scanned posts), the selection returns a heap, and
`top_k_authors_by_likes` fails with `NotFound` (user) whenever the author's pair
is still in that heap, which is the case at least when fewer than `k` other
authors have a total greater than or equal to `c`.  In general the call fails
with `NotFound` exactly when some author left in the heap is unregistered. -/
theorem C6_unregistered_author_fails (db : OptimizedDatabase) (h : Reachable db)
    (k ownerId dateBegin dateEnd : Int) (hk : 1 ≤ k) (hk2 : k ≤ 2147483647)
    (i : Int) (p : Post) (hp : db.posts (ownerId, i) = some p)
    (hin1 : dateBegin < p.Date) (hin2 : p.Date < dateEnd) (hu : db.users p.FromId = none)
    (b : List Post) (hb : db.owner_posts ownerId = some b) :
    ∃ c heap,
      (p.FromId, c) ∈ aggregate (fun q => q.Likes) [] (b.filter (in_scan dateBegin dateEnd)) ∧
      c = wrap_int ((((b.filter (in_scan dateBegin dateEnd)).filter
        (fun q => decide (q.FromId = p.FromId))).map (fun q => q.Likes)).sum) ∧
      bounded_select greater_pair (fun x top => decide (x.1 > top.1)) k []
        ((aggregate (fun q => q.Likes) [] (b.filter (in_scan dateBegin dateEnd))).map
          (fun pair => (pair.2, pair.1))) = .ok heap ∧
      (top_k_authors_by_likes db k ownerId dateBegin dateEnd = .error .UserNotFound ↔
        ∃ pair ∈ heap, db.users pair.2 = none) ∧
      ((c, p.FromId) ∈ heap →
        top_k_authors_by_likes db k ownerId dateBegin dateEnd = .error .UserNotFound) ∧
      ((((aggregate (fun q => q.Likes) [] (b.filter (in_scan dateBegin dateEnd))).filter
          (fun pr => decide (pr.1 ≠ p.FromId ∧ c ≤ pr.2))).length : Int) < k →
        top_k_authors_by_likes db k ownerId dateBegin dateEnd = .error .UserNotFound) := by
  have hinv := Inv_of_Reachable h
  obtain ⟨b1, hb1, e, he, hs⟩ := hinv.indexed ownerId i p hp
  rw [hb] at hb1
  cases hb1
  have hscan : in_scan dateBegin dateEnd e = true := by
    rw [in_scan_iff, hs.2.2.2]
    omega
  obtain ⟨c, heap, h1, h2, h3, h4, h5⟩ := top_k_authors_survivor (fun q => q.Likes) db k ownerId
    dateBegin dateEnd hk hk2 (by omega) b hb (hinv.sorted ownerId b hb) e he hscan
  rw [hs.2.2.1] at h1 h2 h5
  have hfail : (c, p.FromId) ∈ heap →
      top_k_authors_by_likes db k ownerId dateBegin dateEnd = .error .UserNotFound :=
    fun hmem => h4.mpr ⟨(c, p.FromId), hmem, hu⟩
  exact ⟨c, heap, h1, h2, h3, h4, hfail, fun hrank => hfail (h5 hrank)⟩

/-- C6 (amended) at a store where the registered author 1 has 1 like and the
unregistered author 2 has 10 likes, with `k = 1`: author 2 is kept and the call
fails. -/
theorem C6_unregistered_author_fails_witness :
    Reachable (run empty [.insert_user ⟨1, 0⟩, .insert_post ⟨1, 1, 1, 5, 1, 0⟩,
      .insert_post ⟨2, 1, 2, 6, 10, 0⟩]) ∧
    (1 : Int) ≤ 1 ∧ (1 : Int) ≤ 2147483647 ∧
    (run empty [.insert_user ⟨1, 0⟩, .insert_post ⟨1, 1, 1, 5, 1, 0⟩,
      .insert_post ⟨2, 1, 2, 6, 10, 0⟩]).posts (1, 2) = some ⟨2, 1, 2, 6, 10, 0⟩ ∧
    (0 : Int) < 6 ∧ (6 : Int) < 10 ∧
    (run empty [.insert_user ⟨1, 0⟩, .insert_post ⟨1, 1, 1, 5, 1, 0⟩,
      .insert_post ⟨2, 1, 2, 6, 10, 0⟩]).users 2 = none ∧
    (run empty [.insert_user ⟨1, 0⟩, .insert_post ⟨1, 1, 1, 5, 1, 0⟩,
      .insert_post ⟨2, 1, 2, 6, 10, 0⟩]).owner_posts 1
      = some [⟨1, 1, 1, 5, 1, 0⟩, ⟨2, 1, 2, 6, 10, 0⟩] ∧
    top_k_authors_by_likes (run empty [.insert_user ⟨1, 0⟩, .insert_post ⟨1, 1, 1, 5, 1, 0⟩,
      .insert_post ⟨2, 1, 2, 6, 10, 0⟩]) 1 1 0 10 = .error .UserNotFound :=
  ⟨Reachable_run Reachable.init _, by decide, by decide, by decide, by decide, by decide,
    by decide, by decide,
    by
      obtain ⟨c, heap, -, h2, -, -, -, h6⟩ := C6_unregistered_author_fails
        (run empty [.insert_user ⟨1, 0⟩, .insert_post ⟨1, 1, 1, 5, 1, 0⟩,
          .insert_post ⟨2, 1, 2, 6, 10, 0⟩])
        (Reachable_run Reachable.init _) 1 1 0 10 (by decide) (by decide) 2
        ⟨2, 1, 2, 6, 10, 0⟩ (by decide) (by decide) (by decide) (by decide)
        [⟨1, 1, 1, 5, 1, 0⟩, ⟨2, 1, 2, 6, 10, 0⟩] (by decide)
      apply h6
      subst h2
      decide⟩

/-- C7 (the code departs from the claim): user 7 is registered and owner 1 has
two posts by user 7, `{Id 1, Date 5, Likes 3}` and `{Id 2, Date 10, Likes 4}`,
both dated in the inclusive window `[0, 10]`, stored by `insert_user` and
`insert_post` calls only.  `top_k_authors_by_likes(1, 1, 0, 10)` succeeds with
the pair `(user 7, 3)`, whereas the sum over the window is 7: the post dated
`dateEnd` is not scanned. -/
theorem C7_aggregate_misses_post_dated_dateEnd :
    get_post (insert_post (insert_post (insert_user empty ⟨7, 0⟩) ⟨1, 1, 7, 5, 3, 0⟩)
      ⟨2, 1, 7, 10, 4, 0⟩) 1 1 = .ok ⟨1, 1, 7, 5, 3, 0⟩ ∧
    get_post (insert_post (insert_post (insert_user empty ⟨7, 0⟩) ⟨1, 1, 7, 5, 3, 0⟩)
      ⟨2, 1, 7, 10, 4, 0⟩) 1 2 = .ok ⟨2, 1, 7, 10, 4, 0⟩ ∧
    top_k_authors_by_likes (insert_post (insert_post (insert_user empty ⟨7, 0⟩)
      ⟨1, 1, 7, 5, 3, 0⟩) ⟨2, 1, 7, 10, 4, 0⟩) 1 1 0 10 = .ok [(⟨7, 0⟩, 3)] := by
  decide

/-- In every reachable store, for all `k`, `ownerId`, `dateBegin`, `dateEnd`,
every post in a sequence returned by `top_k_post_by_likes` or by
`top_k_post_by_reposts` has `OwnerId = ownerId` and `dateBegin ≤ Date ≤ dateEnd`
and is an entry of the owner's index bucket; and both queries do return when `k`
is a nonzero `int` and `dateBegin ≤ dateEnd`. -/
theorem returned_posts_in_window (db : OptimizedDatabase) (h : Reachable db)
    (k ownerId dateBegin dateEnd : Int) :
    (∀ res, top_k_post_by_likes db k ownerId dateBegin dateEnd = .ok res →
      ∀ p ∈ res, p.OwnerId = ownerId ∧ dateBegin ≤ p.Date ∧ p.Date ≤ dateEnd ∧
        ∃ b, db.owner_posts ownerId = some b ∧ p ∈ b) ∧
    (∀ res, top_k_post_by_reposts db k ownerId dateBegin dateEnd = .ok res →
      ∀ p ∈ res, p.OwnerId = ownerId ∧ dateBegin ≤ p.Date ∧ p.Date ≤ dateEnd ∧
        ∃ b, db.owner_posts ownerId = some b ∧ p ∈ b) ∧
    (k ≠ 0 → -2147483648 ≤ k → k ≤ 2147483647 → dateBegin ≤ dateEnd →
      (∃ res, top_k_post_by_likes db k ownerId dateBegin dateEnd = .ok res) ∧
      (∃ res, top_k_post_by_reposts db k ownerId dateBegin dateEnd = .ok res)) := by
  have hinv := Inv_of_Reachable h
  refine ⟨?_, ?_, ?_⟩
  · intro res hres
    rcases top_k_post_by_likes_ok db k ownerId dateBegin dateEnd res hres with
      ⟨-, rfl⟩ | ⟨b, r, heap, hb, hr, hheap, rfl⟩
    · simp
    · exact selected_in_window db hinv ownerId dateBegin dateEnd _ _ k b r heap hb hr hheap
  · intro res hres
    rcases top_k_post_by_reposts_ok db k ownerId dateBegin dateEnd res hres with
      ⟨-, rfl⟩ | ⟨b, r, heap, hb, hr, hheap, rfl⟩
    · simp
    · exact selected_in_window db hinv ownerId dateBegin dateEnd _ _ k b r heap hb hr hheap
  · intro h0 h1 h2 hd
    exact ⟨top_k_post_by_likes_returns db k ownerId dateBegin dateEnd
        (size_lt_zero_of_int k h0 h1 h2) hd,
      top_k_post_by_reposts_returns db k ownerId dateBegin dateEnd
        (size_lt_zero_of_int k h0 h1 h2) hd⟩

/-- C8 (the code departs from the claim): owner 1 has a single post, dated 5,
and the queries are called with `dateBegin = 10`, `dateEnd = 0`.
`lower_bound` is position 1, that is `end()`, and `upper_bound` is position 0,
the post: the loop of `top_k_post_by_likes` and of `top_k_post_by_reposts`
starts at `end()`, dereferences it and pushes what it reads there, which is no
entry of the bucket, and then steps past `end()`.  This is undefined
behaviour. -/
theorem C8_inverted_window_reads_end :
    (insert_post empty ⟨10, 1, 7, 5, 3, 0⟩).owner_posts 1 = some [⟨10, 1, 7, 5, 3, 0⟩] ∧
    lower_bound CompareByDate (dummy 10) [(⟨10, 1, 7, 5, 3, 0⟩ : Post)] = 1 ∧
    upper_bound CompareByDate (dummy 0) [(⟨10, 1, 7, 5, 3, 0⟩ : Post)] = 0 ∧
    top_k_post_by_likes (insert_post empty ⟨10, 1, 7, 5, 3, 0⟩) 1 1 10 0 = .error .Undefined ∧
    top_k_post_by_reposts (insert_post empty ⟨10, 1, 7, 5, 3, 0⟩) 1 1 10 0
      = .error .Undefined := by
  decide

/-- C9: for every store, every `int` `k ≥ 1` and all `ownerId`, `dateBegin`,
`dateEnd`, the sequence returned by `top_k_post_by_likes` is in non-increasing
order of `Likes` and the sequence returned by `top_k_post_by_reposts` is in
non-increasing order of `Reposts`; and both queries do return when
`dateBegin ≤ dateEnd`. -/
theorem C9_results_sorted (db : OptimizedDatabase) (k ownerId dateBegin dateEnd : Int)
    (hk : 1 ≤ k) (hk2 : k ≤ 2147483647) :
    (∀ res, top_k_post_by_likes db k ownerId dateBegin dateEnd = .ok res →
      res.Pairwise (fun a b => a.Likes ≥ b.Likes)) ∧
    (∀ res, top_k_post_by_reposts db k ownerId dateBegin dateEnd = .ok res →
      res.Pairwise (fun a b => a.Reposts ≥ b.Reposts)) ∧
    (dateBegin ≤ dateEnd →
      (∃ res, top_k_post_by_likes db k ownerId dateBegin dateEnd = .ok res) ∧
      (∃ res, top_k_post_by_reposts db k ownerId dateBegin dateEnd = .ok res)) := by
  refine ⟨?_, ?_, ?_⟩
  · intro res hres
    rcases top_k_post_by_likes_ok db k ownerId dateBegin dateEnd res hres with
      ⟨-, rfl⟩ | ⟨b, r, heap, hb, hr, hheap, rfl⟩
    · exact List.Pairwise.nil
    · rw [List.pairwise_reverse]
      refine bounded_select_pairwise CompareByLikes _ (fun a b => a.Likes ≤ b.Likes)
        (fun _ _ _ h1 h2 => le_trans h1 h2) ?_ ?_ k r [] heap List.Pairwise.nil hheap
      · intro a b hab
        simp only [CompareByLikes, decide_eq_true_eq] at hab
        omega
      · intro a b hab
        simp only [CompareByLikes, decide_eq_false_iff_not] at hab
        omega
  · intro res hres
    rcases top_k_post_by_reposts_ok db k ownerId dateBegin dateEnd res hres with
      ⟨-, rfl⟩ | ⟨b, r, heap, hb, hr, hheap, rfl⟩
    · exact List.Pairwise.nil
    · rw [List.pairwise_reverse]
      refine bounded_select_pairwise CompareByReposts _ (fun a b => a.Reposts ≤ b.Reposts)
        (fun _ _ _ h1 h2 => le_trans h1 h2) ?_ ?_ k r [] heap List.Pairwise.nil hheap
      · intro a b hab
        simp only [CompareByReposts, decide_eq_true_eq] at hab
        omega
      · intro a b hab
        simp only [CompareByReposts, decide_eq_false_iff_not] at hab
        omega
  · intro hd
    have hk0 : size_lt 0 k = true := size_lt_zero_of_int k (by omega) (by omega) hk2
    exact ⟨top_k_post_by_likes_returns db k ownerId dateBegin dateEnd hk0 hd,
      top_k_post_by_reposts_returns db k ownerId dateBegin dateEnd hk0 hd⟩

/-- C9 at a store with three posts of one owner, two of them in the window. -/
theorem C9_results_sorted_witness :
    (1 : Int) ≤ 2 ∧ (2 : Int) ≤ 2147483647 ∧
    top_k_post_by_likes
      (insert_post (insert_post (insert_post empty ⟨10, 1, 7, 5, 3, 0⟩) ⟨11, 1, 7, 7, 9, 0⟩)
        ⟨12, 1, 7, 20, 1, 0⟩) 2 1 0 10 = .ok [⟨11, 1, 7, 7, 9, 0⟩, ⟨10, 1, 7, 5, 3, 0⟩] ∧
    List.Pairwise (fun a b : Post => a.Likes ≥ b.Likes)
      [⟨11, 1, 7, 7, 9, 0⟩, ⟨10, 1, 7, 5, 3, 0⟩] :=
  ⟨by decide, by decide, by decide,
    (C9_results_sorted
      (insert_post (insert_post (insert_post empty ⟨10, 1, 7, 5, 3, 0⟩) ⟨11, 1, 7, 7, 9, 0⟩)
        ⟨12, 1, 7, 20, 1, 0⟩) 2 1 0 10 (by decide) (by decide)).1 _ (by decide)⟩

/-- C10 (the code departs from the claim): with one post of owner 1 stored
inside the window, `top_k_post_by_likes(0, 1, 0, 10)` does not return the empty
sequence: the loop takes the `else` branch on the first scanned post and calls
`min_heap.top()` on an empty queue, which is undefined behaviour. -/
theorem C10_k_zero_reads_empty_heap :
    top_k_post_by_likes (insert_post empty ⟨10, 1, 7, 5, 3, 0⟩) 0 1 0 10 = .error .Undefined ∧
    top_k_post_by_likes (insert_post empty ⟨10, 1, 7, 5, 3, 0⟩) 1 1 0 10
      = .ok [⟨10, 1, 7, 5, 3, 0⟩] := by
  decide

/-- C11: in every reachable store, for every `int` `k ≥ 1` and all `ownerId`,
`dateBegin`, `dateEnd`, whenever `top_k_authors_by_likes` (likewise
`top_k_authors_by_reports`) succeeds, it returns at most `k` pairs, in
non-increasing order of the aggregated count, with pairwise distinct user
identifiers. -/
theorem C11_authors_bounded_sorted_distinct (db : OptimizedDatabase) (h : Reachable db)
    (k ownerId dateBegin dateEnd : Int) (hk : 1 ≤ k) (hk2 : k ≤ 2147483647) :
    (∀ res, top_k_authors_by_likes db k ownerId dateBegin dateEnd = .ok res →
      (res.length : Int) ≤ k ∧ res.Pairwise (fun a b => a.2 ≥ b.2) ∧
        (res.map (fun a => a.1.Id)).Nodup) ∧
    (∀ res, top_k_authors_by_reports db k ownerId dateBegin dateEnd = .ok res →
      (res.length : Int) ≤ k ∧ res.Pairwise (fun a b => a.2 ≥ b.2) ∧
        (res.map (fun a => a.1.Id)).Nodup) :=
  ⟨fun res hres => top_k_authors_result (fun p => p.Likes) db
      (fun q u hu => users_key_of_Reachable h q u hu) k ownerId dateBegin dateEnd hk hk2 res hres,
    fun res hres => top_k_authors_result (fun p => p.Reposts) db
      (fun q u hu => users_key_of_Reachable h q u hu) k ownerId dateBegin dateEnd hk hk2 res hres⟩

/-- C11 at a store with three registered authors posting for owner 1, `k = 2`. -/
theorem C11_authors_bounded_sorted_distinct_witness :
    Reachable (run empty [.insert_user ⟨7, 0⟩, .insert_user ⟨8, 0⟩, .insert_user ⟨9, 0⟩,
      .insert_post ⟨1, 1, 7, 5, 3, 0⟩, .insert_post ⟨2, 1, 8, 6, 9, 0⟩,
      .insert_post ⟨3, 1, 9, 7, 1, 0⟩, .insert_post ⟨4, 1, 7, 8, 2, 0⟩]) ∧
    (1 : Int) ≤ 2 ∧ (2 : Int) ≤ 2147483647 ∧
    top_k_authors_by_likes (run empty [.insert_user ⟨7, 0⟩, .insert_user ⟨8, 0⟩,
      .insert_user ⟨9, 0⟩, .insert_post ⟨1, 1, 7, 5, 3, 0⟩, .insert_post ⟨2, 1, 8, 6, 9, 0⟩,
      .insert_post ⟨3, 1, 9, 7, 1, 0⟩, .insert_post ⟨4, 1, 7, 8, 2, 0⟩]) 2 1 0 10
      = .ok [(⟨8, 0⟩, 9), (⟨7, 0⟩, 5)] ∧
    ((([(⟨8, 0⟩, 9), (⟨7, 0⟩, 5)] : List (User × Int)).length : Int) ≤ 2 ∧
      ([(⟨8, 0⟩, 9), (⟨7, 0⟩, 5)] : List (User × Int)).Pairwise (fun a b => a.2 ≥ b.2) ∧
      (([(⟨8, 0⟩, 9), (⟨7, 0⟩, 5)] : List (User × Int)).map (fun a => a.1.Id)).Nodup) :=
  ⟨Reachable_run Reachable.init _, by decide, by decide, by decide,
    (C11_authors_bounded_sorted_distinct
      (run empty [.insert_user ⟨7, 0⟩, .insert_user ⟨8, 0⟩, .insert_user ⟨9, 0⟩,
        .insert_post ⟨1, 1, 7, 5, 3, 0⟩, .insert_post ⟨2, 1, 8, 6, 9, 0⟩,
        .insert_post ⟨3, 1, 9, 7, 1, 0⟩, .insert_post ⟨4, 1, 7, 8, 2, 0⟩])
      (Reachable_run Reachable.init _) 2 1 0 10
      (by decide) (by decide)).1 [(⟨8, 0⟩, 9), (⟨7, 0⟩, 5)] (by decide)⟩

/-- C12: first write wins.  In every store that already holds the key
`(p.OwnerId, p.Id)`, `insert_post(p)` leaves the whole store unchanged (users,
Post Table, Owner Date Index), and `get_post` still returns the original
record, whatever the other fields of `p` are. -/
theorem C12_insert_post_first_write_wins (db : OptimizedDatabase) (p q : Post)
    (h : db.posts (p.OwnerId, p.Id) = some q) :
    insert_post db p = db ∧ get_post (insert_post db p) p.OwnerId p.Id = .ok q := by
  rw [insert_post_of_present db p q h]
  refine ⟨rfl, ?_⟩
  unfold get_post
  rw [h]

/-- C12 at a store holding post `(1, 10)`, with a second post under the same key. -/
theorem C12_insert_post_first_write_wins_witness :
    (insert_post empty ⟨10, 1, 7, 5, 3, 0⟩).posts (1, 10) = some ⟨10, 1, 7, 5, 3, 0⟩ ∧
    insert_post (insert_post empty ⟨10, 1, 7, 5, 3, 0⟩) ⟨10, 1, 8, 6, 100, 2⟩
      = insert_post empty ⟨10, 1, 7, 5, 3, 0⟩ ∧
    get_post (insert_post (insert_post empty ⟨10, 1, 7, 5, 3, 0⟩) ⟨10, 1, 8, 6, 100, 2⟩) 1 10
      = .ok ⟨10, 1, 7, 5, 3, 0⟩ :=
  ⟨by decide,
    C12_insert_post_first_write_wins (insert_post empty ⟨10, 1, 7, 5, 3, 0⟩)
      ⟨10, 1, 8, 6, 100, 2⟩ ⟨10, 1, 7, 5, 3, 0⟩ (by decide)⟩

/-- C13: for every store and every post `p` whose key is absent, `get_post` on
that key returns `p` right after `insert_post(p)` and still returns `p` after
any further calls among which there is no `delete_post`, `like_post`,
`unlike_post` or `repost_post` on that key; and in any store `get_post` fails
with `NotFound` exactly when the key is absent from the Post Table. -/
theorem C13_get_post_returns_inserted (db : OptimizedDatabase) (p : Post) (ops : List Op)
    (habs : db.posts (p.OwnerId, p.Id) = none)
    (hops : ∀ op ∈ ops, Op.keeps p.OwnerId p.Id op) :
    get_post (insert_post db p) p.OwnerId p.Id = .ok p ∧
    get_post (run (insert_post db p) ops) p.OwnerId p.Id = .ok p ∧
    (∀ (s : OptimizedDatabase) (o i : Int),
      get_post s o i = .error .PostNotFound ↔ s.posts (o, i) = none) := by
  have hp : (insert_post db p).posts (p.OwnerId, p.Id) = some p := by
    rw [insert_post_of_absent db p habs]
    exact map_set_same _ _ _
  refine ⟨?_, ?_, ?_⟩
  · unfold get_post
    rw [hp]
  · unfold get_post
    rw [posts_run_of_keeps p.OwnerId p.Id p ops hops _ hp]
  · intro s o i
    unfold get_post
    cases s.posts (o, i) <;> simp

/-- C13 at the empty store, followed by a duplicate insert, calls on another key
and a user insert. -/
theorem C13_get_post_returns_inserted_witness :
    empty.posts (1, 10) = none ∧
    get_post (run (insert_post empty ⟨10, 1, 7, 5, 3, 0⟩)
      [.insert_post ⟨10, 1, 8, 6, 100, 2⟩, .insert_post ⟨11, 1, 7, 6, 0, 0⟩, .like_post 1 11,
        .delete_post 1 11, .insert_user ⟨7, 0⟩]) 1 10 = .ok ⟨10, 1, 7, 5, 3, 0⟩ :=
  ⟨rfl,
    (C13_get_post_returns_inserted empty ⟨10, 1, 7, 5, 3, 0⟩
      [.insert_post ⟨10, 1, 8, 6, 100, 2⟩, .insert_post ⟨11, 1, 7, 6, 0, 0⟩, .like_post 1 11,
        .delete_post 1 11, .insert_user ⟨7, 0⟩] rfl
      (by
        intro op hop
        simp only [List.mem_cons, List.mem_singleton, List.not_mem_nil, or_false] at hop
        rcases hop with rfl | rfl | rfl | rfl | rfl
        · trivial
        · trivial
        · show ((1 : Int), (11 : Int)) ≠ (1, 10)
          decide
        · show ((1 : Int), (11 : Int)) ≠ (1, 10)
          decide
        · trivial)).2.1⟩

/-- C14: for every store, every stored key `(o, i)` (its like count being an
`int`) and every `N`, `N` calls of `like_post(o, i)` followed by `N` calls of
`unlike_post(o, i)` give back the same store, so `get_post(o, i)` returns the
same record as before and everything else is unchanged.  The counter wraps at
the ends of the `int` range and comes back all the same. -/
theorem C14_likes_then_unlikes_restore (db : OptimizedDatabase) (o i : Int) (p : Post) (n : Nat)
    (hp : db.posts (o, i) = some p) (h1 : -2147483648 ≤ p.Likes) (h2 : p.Likes ≤ 2147483647) :
    run db (List.replicate n (Op.like_post o i) ++ List.replicate n (Op.unlike_post o i)) = db ∧
    get_post (run db
      (List.replicate n (Op.like_post o i) ++ List.replicate n (Op.unlike_post o i))) o i
      = .ok p := by
  rw [run_likes_unlikes o i n db p hp h1 h2]
  refine ⟨rfl, ?_⟩
  unfold get_post
  rw [hp]

/-- C14 at a post with 3 likes, liked and unliked twice. -/
theorem C14_likes_then_unlikes_restore_witness :
    (insert_post empty ⟨10, 1, 7, 5, 3, 0⟩).posts (1, 10) = some ⟨10, 1, 7, 5, 3, 0⟩ ∧
    get_post (unlike_post (unlike_post (like_post (like_post
      (insert_post empty ⟨10, 1, 7, 5, 3, 0⟩) 1 10) 1 10) 1 10) 1 10) 1 10
      = .ok ⟨10, 1, 7, 5, 3, 0⟩ :=
  ⟨by decide,
    (C14_likes_then_unlikes_restore (insert_post empty ⟨10, 1, 7, 5, 3, 0⟩) 1 10
      ⟨10, 1, 7, 5, 3, 0⟩ 2 (by decide) (by decide) (by decide)).2⟩

/-- C15: for every store and every key `(o, i)` absent from the Post Table,
`like_post(o, i)`, `unlike_post(o, i)` and `repost_post(o, i)` each return the
store unchanged: no record, bucket or index entry is created.  (The three
operations have no failure result at all.) -/
theorem C15_counter_mutations_on_missing_key (db : OptimizedDatabase) (o i : Int)
    (h : db.posts (o, i) = none) :
    like_post db o i = db ∧ unlike_post db o i = db ∧ repost_post db o i = db := by
  unfold like_post unlike_post repost_post
  rw [h]
  exact ⟨rfl, rfl, rfl⟩

/-- C15 at a store holding post `(1, 10)`, for the missing key `(1, 11)`. -/
theorem C15_counter_mutations_on_missing_key_witness :
    (insert_post empty ⟨10, 1, 7, 5, 3, 0⟩).posts (1, 11) = none ∧
    like_post (insert_post empty ⟨10, 1, 7, 5, 3, 0⟩) 1 11
      = insert_post empty ⟨10, 1, 7, 5, 3, 0⟩ :=
  ⟨by decide,
    (C15_counter_mutations_on_missing_key (insert_post empty ⟨10, 1, 7, 5, 3, 0⟩) 1 11
      (by decide)).1⟩

/-- C16 (the code departs from the claim): owner 1 has a single post, dated 5.
No date lies in the window `[10, 0]`, so the owner has no post in it, yet none
of the four queries called with `dateBegin = 10`, `dateEnd = 0` returns the
empty sequence: `lower_bound` is `end()` and `upper_bound` is the post, so the
loop `for (it = begin; it != end; ++it)` starts at `end()`, dereferences it and
steps past it, which is undefined behaviour. -/
theorem C16_inverted_window_steps_past_end :
    get_post (insert_post empty ⟨10, 1, 7, 5, 3, 0⟩) 1 10 = .ok ⟨10, 1, 7, 5, 3, 0⟩ ∧
    top_k_post_by_likes (insert_post empty ⟨10, 1, 7, 5, 3, 0⟩) 1 1 10 0 = .error .Undefined ∧
    top_k_post_by_reposts (insert_post empty ⟨10, 1, 7, 5, 3, 0⟩) 1 1 10 0
      = .error .Undefined ∧
    top_k_authors_by_likes (insert_post empty ⟨10, 1, 7, 5, 3, 0⟩) 1 1 10 0
      = .error .Undefined ∧
    top_k_authors_by_reports (insert_post empty ⟨10, 1, 7, 5, 3, 0⟩) 1 1 10 0
      = .error .Undefined := by
  decide

/-- C17: starting from the empty store and inserting for owner 1 the posts
`{Id 10, Date 5, Likes 3}`, `{Id 11, Date 7, Likes 9}` and
`{Id 12, Date 20, Likes 1}` in any of the six orders (authors and repost counts
being arbitrary), `top_k_post_by_likes(2, 1, 0, 10)` returns exactly
`[post 11, post 10]`. -/
theorem C17_scenario_top_two_by_likes (f1 f2 f3 r1 r2 r3 : Int) :
    top_k_post_by_likes (run empty [.insert_post ⟨10, 1, f1, 5, 3, r1⟩,
      .insert_post ⟨11, 1, f2, 7, 9, r2⟩, .insert_post ⟨12, 1, f3, 20, 1, r3⟩]) 2 1 0 10
      = .ok [⟨11, 1, f2, 7, 9, r2⟩, ⟨10, 1, f1, 5, 3, r1⟩] ∧
    top_k_post_by_likes (run empty [.insert_post ⟨10, 1, f1, 5, 3, r1⟩,
      .insert_post ⟨12, 1, f3, 20, 1, r3⟩, .insert_post ⟨11, 1, f2, 7, 9, r2⟩]) 2 1 0 10
      = .ok [⟨11, 1, f2, 7, 9, r2⟩, ⟨10, 1, f1, 5, 3, r1⟩] ∧
    top_k_post_by_likes (run empty [.insert_post ⟨11, 1, f2, 7, 9, r2⟩,
      .insert_post ⟨10, 1, f1, 5, 3, r1⟩, .insert_post ⟨12, 1, f3, 20, 1, r3⟩]) 2 1 0 10
      = .ok [⟨11, 1, f2, 7, 9, r2⟩, ⟨10, 1, f1, 5, 3, r1⟩] ∧
    top_k_post_by_likes (run empty [.insert_post ⟨11, 1, f2, 7, 9, r2⟩,
      .insert_post ⟨12, 1, f3, 20, 1, r3⟩, .insert_post ⟨10, 1, f1, 5, 3, r1⟩]) 2 1 0 10
      = .ok [⟨11, 1, f2, 7, 9, r2⟩, ⟨10, 1, f1, 5, 3, r1⟩] ∧
    top_k_post_by_likes (run empty [.insert_post ⟨12, 1, f3, 20, 1, r3⟩,
      .insert_post ⟨10, 1, f1, 5, 3, r1⟩, .insert_post ⟨11, 1, f2, 7, 9, r2⟩]) 2 1 0 10
      = .ok [⟨11, 1, f2, 7, 9, r2⟩, ⟨10, 1, f1, 5, 3, r1⟩] ∧
    top_k_post_by_likes (run empty [.insert_post ⟨12, 1, f3, 20, 1, r3⟩,
      .insert_post ⟨11, 1, f2, 7, 9, r2⟩, .insert_post ⟨10, 1, f1, 5, 3, r1⟩]) 2 1 0 10
      = .ok [⟨11, 1, f2, 7, 9, r2⟩, ⟨10, 1, f1, 5, 3, r1⟩] :=
  ⟨rfl, rfl, rfl, rfl, rfl, rfl⟩

/-- C18: for every `int` `k ≥ 1` and every owner bucket, with `R` the sequence
of entries the loop visits between `lower_bound` and `upper_bound`,
`top_k_post_by_likes` returns exactly `min(k, |R|)` posts, which form a
sub-multiset of `R`; `R` splits into the returned posts and the rest, and no
entry of the rest (in particular no entry of `R` that is not returned) has more
likes than any returned post. -/
theorem C18_bounded_heap_selects_top_k (db : OptimizedDatabase)
    (k ownerId dateBegin dateEnd : Int) (b R : List Post)
    (hb : db.owner_posts ownerId = some b) (hR : scan b dateBegin dateEnd = .ok R)
    (hk : 1 ≤ k) (hk2 : k ≤ 2147483647) :
    ∃ res, top_k_post_by_likes db k ownerId dateBegin dateEnd = .ok res ∧
      (res.length : Int) = min k (R.length : Int) ∧
      res.Subperm R ∧
      (∃ rest, R.Perm (res ++ rest) ∧ ∀ x ∈ rest, ∀ y ∈ res, x.Likes ≤ y.Likes) ∧
      (∀ x ∈ R, x ∉ res → ∀ y ∈ res, x.Likes ≤ y.Likes) := by
  have hk0 : size_lt 0 k = true := size_lt_zero_of_int k (by omega) (by omega) hk2
  obtain ⟨heap, hheap⟩ := bounded_select_returns CompareByLikes
    (fun x top => decide (x.Likes > top.Likes)) k hk0 R []
  have hres : top_k_post_by_likes db k ownerId dateBegin dateEnd = .ok heap.reverse := by
    rw [top_k_post_by_likes_of_scan db k ownerId dateBegin dateEnd b R hb hR, hheap]
    rfl
  have hlen := bounded_select_length CompareByLikes _ k R [] heap (by
    simp only [List.length_nil]
    omega) hheap
  obtain ⟨rest, hperm, -, hopt⟩ := bounded_select_spec (fun p : Post => p.Likes) CompareByLikes
    (fun a b hab => by
      simp only [CompareByLikes, decide_eq_true_eq] at hab
      exact le_of_lt hab)
    (fun a b hab => by
      simp only [CompareByLikes, decide_eq_false_iff_not] at hab
      exact not_lt.mp hab)
    k R [] [] heap List.Pairwise.nil (fun _ hd => by simp at hd) (fun _ => rfl) hheap
  simp only [List.append_nil] at hperm
  have hperm1 : R.Perm (heap.reverse ++ rest) :=
    hperm.trans (List.Perm.append_right rest (List.reverse_perm heap).symm)
  have hopt1 : ∀ x ∈ rest, ∀ y ∈ heap.reverse, x.Likes ≤ y.Likes :=
    fun x hx y hy => hopt x hx y (List.mem_reverse.mp hy)
  refine ⟨heap.reverse, hres, ?_, ?_, ⟨rest, hperm1, hopt1⟩, ?_⟩
  · rw [List.length_reverse, hlen]
    have hkm : k % 18446744073709551616 = k := by omega
    simp only [List.length_nil, Nat.zero_add, hkm]
  · exact (List.sublist_append_left _ _).subperm.trans hperm1.symm.subperm
  · intro x hx hnot y hy
    have hmem : x ∈ heap.reverse ++ rest := hperm1.mem_iff.mp hx
    rcases List.mem_append.mp hmem with h | h
    · exact absurd h hnot
    · exact hopt1 x h y hy

/-- C18 at the three-post scenario with `k = 1`. -/
theorem C18_bounded_heap_selects_top_k_witness :
    (run empty [.insert_post ⟨10, 1, 7, 5, 3, 0⟩, .insert_post ⟨11, 1, 7, 7, 9, 0⟩,
      .insert_post ⟨12, 1, 7, 20, 1, 0⟩]).owner_posts 1
      = some [⟨10, 1, 7, 5, 3, 0⟩, ⟨11, 1, 7, 7, 9, 0⟩, ⟨12, 1, 7, 20, 1, 0⟩] ∧
    scan [⟨10, 1, 7, 5, 3, 0⟩, ⟨11, 1, 7, 7, 9, 0⟩, ⟨12, 1, 7, 20, 1, 0⟩] 0 10
      = .ok [⟨10, 1, 7, 5, 3, 0⟩, ⟨11, 1, 7, 7, 9, 0⟩] ∧
    (1 : Int) ≤ 1 ∧ (1 : Int) ≤ 2147483647 ∧
    ∃ res, top_k_post_by_likes (run empty [.insert_post ⟨10, 1, 7, 5, 3, 0⟩,
        .insert_post ⟨11, 1, 7, 7, 9, 0⟩, .insert_post ⟨12, 1, 7, 20, 1, 0⟩]) 1 1 0 10
        = .ok res ∧
      (res.length : Int)
        = min 1 (([⟨10, 1, 7, 5, 3, 0⟩, ⟨11, 1, 7, 7, 9, 0⟩] : List Post).length : Int) :=
  ⟨by decide, by decide, by decide, by decide,
    (C18_bounded_heap_selects_top_k
      (run empty [.insert_post ⟨10, 1, 7, 5, 3, 0⟩, .insert_post ⟨11, 1, 7, 7, 9, 0⟩,
        .insert_post ⟨12, 1, 7, 20, 1, 0⟩]) 1 1 0 10
      [⟨10, 1, 7, 5, 3, 0⟩, ⟨11, 1, 7, 7, 9, 0⟩, ⟨12, 1, 7, 20, 1, 0⟩]
      [⟨10, 1, 7, 5, 3, 0⟩, ⟨11, 1, 7, 7, 9, 0⟩] (by decide) (by decide) (by decide)
      (by decide)).imp (fun _ hres => ⟨hres.1, hres.2.1⟩)⟩

/-- C19 as stated fails at the ends of the `int` range: on a post with
`Likes = 2147483647`, `like_post` leaves `Likes = -2147483648`; on a post with
`Likes = -2147483648`, `unlike_post` leaves `Likes = 2147483647`; on a post with
`Reposts = 2147483647`, `repost_post` leaves `Reposts = -2147483648`. -/
theorem C19_counter_wraps_at_int_bound :
    get_post (like_post (insert_post empty ⟨10, 1, 7, 5, 2147483647, 0⟩) 1 10) 1 10
      = .ok ⟨10, 1, 7, 5, -2147483648, 0⟩ ∧
    get_post (unlike_post (insert_post empty ⟨10, 1, 7, 5, -2147483648, 0⟩) 1 10) 1 10
      = .ok ⟨10, 1, 7, 5, 2147483647, 0⟩ ∧
    get_post (repost_post (insert_post empty ⟨10, 1, 7, 5, 0, 2147483647⟩) 1 10) 1 10
      = .ok ⟨10, 1, 7, 5, 0, -2147483648⟩ := by
  decide

/-- C19 (amended): for every store and stored key `(o, i)` with record `p`:
`like_post` sets `Likes` to `p.Likes + 1` when `p.Likes` is an `int` below
`INT_MAX`, `unlike_post` sets it to `p.Likes - 1` when `p.Likes` is an `int`
above `INT_MIN`, and `repost_post` sets `Reposts` to `p.Reposts + 1` when
`p.Reposts` is an `int` below `INT_MAX`; in every case (also at the bounds,
where the counter wraps) every other field of the record, every other Post
Table record, the User Registry and the whole Owner Date Index, with the
counters of the index copy of that post, are unchanged. -/
theorem C19_counter_mutations_frame (db : OptimizedDatabase) (o i : Int) (p : Post)
    (hp : db.posts (o, i) = some p) :
    ((-2147483648 ≤ p.Likes → p.Likes < 2147483647 →
        get_post (like_post db o i) o i = .ok { p with Likes := p.Likes + 1 }) ∧
      get_post (like_post db o i) o i = .ok { p with Likes := wrap_int (p.Likes + 1) } ∧
      (∀ key, key ≠ (o, i) → (like_post db o i).posts key = db.posts key) ∧
      (like_post db o i).users = db.users ∧
      (like_post db o i).owner_posts = db.owner_posts) ∧
    ((-2147483648 < p.Likes → p.Likes ≤ 2147483647 →
        get_post (unlike_post db o i) o i = .ok { p with Likes := p.Likes - 1 }) ∧
      get_post (unlike_post db o i) o i = .ok { p with Likes := wrap_int (p.Likes - 1) } ∧
      (∀ key, key ≠ (o, i) → (unlike_post db o i).posts key = db.posts key) ∧
      (unlike_post db o i).users = db.users ∧
      (unlike_post db o i).owner_posts = db.owner_posts) ∧
    ((-2147483648 ≤ p.Reposts → p.Reposts < 2147483647 →
        get_post (repost_post db o i) o i = .ok { p with Reposts := p.Reposts + 1 }) ∧
      get_post (repost_post db o i) o i = .ok { p with Reposts := wrap_int (p.Reposts + 1) } ∧
      (∀ key, key ≠ (o, i) → (repost_post db o i).posts key = db.posts key) ∧
      (repost_post db o i).users = db.users ∧
      (repost_post db o i).owner_posts = db.owner_posts) := by
  rw [like_post_of_present db o i p hp, unlike_post_of_present db o i p hp,
    repost_post_of_present db o i p hp]
  refine ⟨⟨?_, ?_, ?_, rfl, rfl⟩, ⟨?_, ?_, ?_, rfl, rfl⟩, ⟨?_, ?_, ?_, rfl, rfl⟩⟩
  · intro h1 h2
    simp only [get_post, map_set_same, wrap_int_of_int (p.Likes + 1) (by omega) (by omega)]
  · simp only [get_post, map_set_same]
  · intro key hkey
    exact map_set_other _ _ _ _ hkey
  · intro h1 h2
    simp only [get_post, map_set_same, wrap_int_of_int (p.Likes - 1) (by omega) (by omega)]
  · simp only [get_post, map_set_same]
  · intro key hkey
    exact map_set_other _ _ _ _ hkey
  · intro h1 h2
    simp only [get_post, map_set_same, wrap_int_of_int (p.Reposts + 1) (by omega) (by omega)]
  · simp only [get_post, map_set_same]
  · intro key hkey
    exact map_set_other _ _ _ _ hkey

/-- C19 (amended) at a post with 3 likes. -/
theorem C19_counter_mutations_frame_witness :
    (insert_post empty ⟨10, 1, 7, 5, 3, 0⟩).posts (1, 10) = some ⟨10, 1, 7, 5, 3, 0⟩ ∧
    get_post (like_post (insert_post empty ⟨10, 1, 7, 5, 3, 0⟩) 1 10) 1 10
      = .ok ⟨10, 1, 7, 5, 4, 0⟩ ∧
    (like_post (insert_post empty ⟨10, 1, 7, 5, 3, 0⟩) 1 10).owner_posts
      = (insert_post empty ⟨10, 1, 7, 5, 3, 0⟩).owner_posts :=
  ⟨by decide,
    (C19_counter_mutations_frame (insert_post empty ⟨10, 1, 7, 5, 3, 0⟩) 1 10
      ⟨10, 1, 7, 5, 3, 0⟩ (by decide)).1.1 (by decide) (by decide),
    (C19_counter_mutations_frame (insert_post empty ⟨10, 1, 7, 5, 3, 0⟩) 1 10
      ⟨10, 1, 7, 5, 3, 0⟩ (by decide)).1.2.2.2.2⟩

/-- The probes of the four queries carry `Id = 0`, so in a reachable store,
whenever the scan of the bucket of `o` returns, it returns exactly the bucket
entries `e` with `(dateBegin, 0) ≤ (e.Date, e.Id) ≤ (dateEnd, 0)` in
lexicographic order, in bucket order; and it does return when
`dateBegin ≤ dateEnd`.  Equivalently `e` is such an entry iff
`dateBegin < e.Date < dateEnd`, or `dateBegin < dateEnd`, `e.Date = dateBegin`
and `e.Id ≥ 0`, or `dateBegin < dateEnd`, `e.Date = dateEnd` and `e.Id ≤ 0`, or
`dateBegin = dateEnd = e.Date` and `e.Id = 0`.  For `dateBegin ≤ dateEnd` each of
the four queries runs its selection over exactly these entries. -/
theorem scanned_range_exact (db : OptimizedDatabase) (h : Reachable db)
    (o dateBegin dateEnd : Int) (b : List Post) (hb : db.owner_posts o = some b) :
    (∀ R, scan b dateBegin dateEnd = .ok R → R = b.filter (in_scan dateBegin dateEnd)) ∧
    (dateBegin ≤ dateEnd → scan b dateBegin dateEnd = .ok (b.filter (in_scan dateBegin dateEnd))) ∧
    (∀ e : Post, in_scan dateBegin dateEnd e = true ↔
      (toLex (dateBegin, (0 : Int)) ≤ toLex (e.Date, e.Id) ∧
        toLex (e.Date, e.Id) ≤ toLex (dateEnd, (0 : Int)))) ∧
    (∀ e : Post, in_scan dateBegin dateEnd e = true ↔
      ((dateBegin < e.Date ∧ e.Date < dateEnd) ∨
        (dateBegin < dateEnd ∧ e.Date = dateBegin ∧ 0 ≤ e.Id) ∨
        (dateBegin < dateEnd ∧ e.Date = dateEnd ∧ e.Id ≤ 0) ∨
        (dateBegin = dateEnd ∧ e.Date = dateBegin ∧ e.Id = 0))) ∧
    (dateBegin ≤ dateEnd → ∀ k,
      top_k_post_by_likes db k o dateBegin dateEnd =
        Except.map List.reverse
          (bounded_select CompareByLikes (fun x top => decide (x.Likes > top.Likes)) k []
            (b.filter (in_scan dateBegin dateEnd))) ∧
      top_k_post_by_reposts db k o dateBegin dateEnd =
        Except.map List.reverse
          (bounded_select CompareByReposts (fun x top => decide (x.Reposts > top.Reposts)) k []
            (b.filter (in_scan dateBegin dateEnd))) ∧
      top_k_authors_by_likes db k o dateBegin dateEnd =
        (match bounded_select greater_pair (fun x top => decide (x.1 > top.1)) k []
            ((aggregate (fun p => p.Likes) [] (b.filter (in_scan dateBegin dateEnd))).map
              (fun pair => (pair.2, pair.1))) with
          | .error f => .error f
          | .ok heap => Except.map List.reverse (resolve db heap)) ∧
      top_k_authors_by_reports db k o dateBegin dateEnd =
        (match bounded_select greater_pair (fun x top => decide (x.1 > top.1)) k []
            ((aggregate (fun p => p.Reposts) [] (b.filter (in_scan dateBegin dateEnd))).map
              (fun pair => (pair.2, pair.1))) with
          | .error f => .error f
          | .ok heap => Except.map List.reverse (resolve db heap))) := by
  have hsorted := (Inv_of_Reachable h).sorted o b hb
  refine ⟨fun R hR => scan_eq_filter b hsorted dateBegin dateEnd R hR,
    fun hd => scan_of_le b hsorted dateBegin dateEnd hd, ?_, ?_, ?_⟩
  · intro e
    rw [in_scan_iff, Prod.Lex.le_iff, Prod.Lex.le_iff]
    simp only
    omega
  · intro e
    rw [in_scan_iff]
    omega
  · intro hd k
    have hscan := scan_of_le b hsorted dateBegin dateEnd hd
    exact ⟨top_k_post_by_likes_of_scan db k o dateBegin dateEnd b _ hb hscan,
      top_k_post_by_reposts_of_scan db k o dateBegin dateEnd b _ hb hscan,
      top_k_authors_of_scan _ db k o dateBegin dateEnd b _ hb hscan,
      top_k_authors_of_scan _ db k o dateBegin dateEnd b _ hb hscan⟩

/-- C20 (the code departs from the claim): owner 1 has posts dated 5 and 20
and the queries are called with `dateBegin = 10`, `dateEnd = 0`.  No entry `e`
has `(10, 0) ≤ (e.Date, e.Id) ≤ (0, 0)`, so the claimed range is empty; but
`lower_bound` is position 1, the post dated 20, and `upper_bound` is position
0, the post dated 5: the loop starts at the post dated 20, which is outside the
claimed range, and then steps past `end()`, in all four queries.  This is
undefined behaviour. -/
theorem C20_inverted_window_scans_outside_range :
    (run empty [.insert_post ⟨1, 1, 7, 5, 3, 0⟩, .insert_post ⟨2, 1, 7, 20, 9, 0⟩]).owner_posts 1
      = some [⟨1, 1, 7, 5, 3, 0⟩, ⟨2, 1, 7, 20, 9, 0⟩] ∧
    ([⟨1, 1, 7, 5, 3, 0⟩, ⟨2, 1, 7, 20, 9, 0⟩] : List Post).filter (in_scan 10 0) = [] ∧
    lower_bound CompareByDate (dummy 10)
      [(⟨1, 1, 7, 5, 3, 0⟩ : Post), ⟨2, 1, 7, 20, 9, 0⟩] = 1 ∧
    upper_bound CompareByDate (dummy 0)
      [(⟨1, 1, 7, 5, 3, 0⟩ : Post), ⟨2, 1, 7, 20, 9, 0⟩] = 0 ∧
    scan [⟨1, 1, 7, 5, 3, 0⟩, ⟨2, 1, 7, 20, 9, 0⟩] 10 0 = .error .Undefined ∧
    top_k_post_by_likes
      (run empty [.insert_post ⟨1, 1, 7, 5, 3, 0⟩, .insert_post ⟨2, 1, 7, 20, 9, 0⟩]) 1 1 10 0
      = .error .Undefined ∧
    top_k_post_by_reposts
      (run empty [.insert_post ⟨1, 1, 7, 5, 3, 0⟩, .insert_post ⟨2, 1, 7, 20, 9, 0⟩]) 1 1 10 0
      = .error .Undefined ∧
    top_k_authors_by_likes
      (run empty [.insert_post ⟨1, 1, 7, 5, 3, 0⟩, .insert_post ⟨2, 1, 7, 20, 9, 0⟩]) 1 1 10 0
      = .error .Undefined ∧
    top_k_authors_by_reports
      (run empty [.insert_post ⟨1, 1, 7, 5, 3, 0⟩, .insert_post ⟨2, 1, 7, 20, 9, 0⟩]) 1 1 10 0
      = .error .Undefined := by
  decide

end OptimizedDatabase
